import Mathlib

/-!
Verification development for the winter2 value store.

This file shallowly embeds the core of the repository:
* `src/db_fmt.rs` — the recursive codec between a JSON-like value tree
  (`serde_json::Value`) and a directory hierarchy (`value_to_fs_inner`,
  `fs_to_value_inner`), including the standard-base64 key encoding and the
  `elem_{index}_{uuid}` array-child naming scheme;
* `src/app/mod.rs` — the mutation pipeline `Backend::work`, which drains a
  batch of mutations, reloads the tree, applies the mutations in FIFO order,
  persists, and republishes the snapshot only on change.

Machine integers: indices are `usize` values used only as counters/sort keys,
embedded as `Nat` (overflow is irrelevant to the properties at hand).
Filesystem state is embedded as a tree of named children; directory listing
order is the child-list order, and theorems that depend on listing order
quantify over permutations.  Leaf files written by `serde_json::to_writer`
are embedded as holding the serialized value (`FileData.json v`), and files
written by `std::fs::write` with raw text (the `.type` markers) as
`FileData.raw s`; `serde_json` round-tripping of a `Value` through its own
textual form is taken as exact.
-/

namespace Winter2

/-- Embedding of `serde_json::Value`: null / bool / number / string /
array / object.  Numbers are abstracted as `Int` (the codec never computes
with them); objects are association lists in iteration order
(`serde_json::Map` iterates each key once, so well-formed values have
`Nodup` keys — see `Jval.wfB`). -/
inductive Jval where
  | null : Jval
  | bool (b : Bool) : Jval
  | num (n : Int) : Jval
  | str (s : String) : Jval
  | arr (elems : List Jval) : Jval
  | obj (members : List (String × Jval)) : Jval

/-- `matches!(el, Value::Number(_))` from the all-numeric-array guard. -/
def Jval.isNum : Jval → Bool
  | .num _ => true
  | _ => false

/-! ## UTF-8 (models `str::as_bytes` / `String::from_utf8`) -/

/-- UTF-8 encoding of one scalar value (Rust `char` / Lean `Char`). -/
def utf8EncodeChar (c : Char) : List Nat :=
  if c.toNat < 0x80 then [c.toNat]
  else if c.toNat < 0x800 then [0xC0 + c.toNat / 64, 0x80 + c.toNat % 64]
  else if c.toNat < 0x10000 then
    [0xE0 + c.toNat / 4096, 0x80 + c.toNat / 64 % 64, 0x80 + c.toNat % 64]
  else
    [0xF0 + c.toNat / 262144, 0x80 + c.toNat / 4096 % 64, 0x80 + c.toNat / 64 % 64,
      0x80 + c.toNat % 64]

/-- UTF-8 bytes of a string, models `s.as_bytes()`. -/
def utf8EncodeList (cs : List Char) : List Nat :=
  cs.flatMap utf8EncodeChar

def utf8Encode (s : String) : List Nat := utf8EncodeList s.data

/-- Strict UTF-8 decoder (models `String::from_utf8`); rejects overlong
forms, surrogates and out-of-range scalars.  `fuel` is an upper bound on
the recursion depth (any `fuel > length` behaves identically); it makes the
definition structurally recursive so that concrete runs reduce in the
kernel. -/
def utf8DecodeAux : Nat → List Nat → Option (List Char)
  | 0, _ => none
  | _ + 1, [] => some []
  | fuel + 1, b :: rest =>
    if b < 0x80 then
      (utf8DecodeAux fuel rest).map (fun cs => Char.ofNat b :: cs)
    else if b < 0xC2 then none
    else if b < 0xE0 then
      match rest with
      | b1 :: rest2 =>
        if 0x80 ≤ b1 ∧ b1 < 0xC0 then
          (utf8DecodeAux fuel rest2).map
            (fun cs => Char.ofNat ((b - 0xC0) * 64 + (b1 - 0x80)) :: cs)
        else none
      | [] => none
    else if b < 0xF0 then
      match rest with
      | b1 :: b2 :: rest3 =>
        if (0x80 ≤ b1 ∧ b1 < 0xC0) ∧ (0x80 ≤ b2 ∧ b2 < 0xC0) then
          let n := (b - 0xE0) * 4096 + (b1 - 0x80) * 64 + (b2 - 0x80)
          if 0x800 ≤ n ∧ ¬(0xD800 ≤ n ∧ n < 0xE000) then
            (utf8DecodeAux fuel rest3).map (fun cs => Char.ofNat n :: cs)
          else none
        else none
      | _ => none
    else if b < 0xF5 then
      match rest with
      | b1 :: b2 :: b3 :: rest4 =>
        if (0x80 ≤ b1 ∧ b1 < 0xC0) ∧ (0x80 ≤ b2 ∧ b2 < 0xC0) ∧
            (0x80 ≤ b3 ∧ b3 < 0xC0) then
          let n := (b - 0xF0) * 262144 + (b1 - 0x80) * 4096 +
            (b2 - 0x80) * 64 + (b3 - 0x80)
          if 0x10000 ≤ n ∧ n < 0x110000 then
            (utf8DecodeAux fuel rest4).map (fun cs => Char.ofNat n :: cs)
          else none
        else none
      | _ => none
    else none

def utf8DecodeList (bs : List Nat) : Option (List Char) :=
  utf8DecodeAux (bs.length + 1) bs

/-! ## Base64 (models `base64::engine::general_purpose::STANDARD`) -/

/-- The standard (RFC 4648 §4) alphabet used by `STANDARD`: `A–Z a–z 0–9 + /`. -/
def b64Alphabet : List Char :=
  "ABCDEFGHIJKLMNOPQRSTUVWXYZabcdefghijklmnopqrstuvwxyz0123456789+/".data

def b64CharOf (n : Nat) : Char := b64Alphabet.getD n 'A'

def b64IndexAux : List Char → Nat → Char → Option Nat
  | [], _, _ => none
  | a :: rest, i, c => if a = c then some i else b64IndexAux rest (i + 1) c

def b64IndexOf (c : Char) : Option Nat := b64IndexAux b64Alphabet 0 c

/-- Padded standard base64 of a byte list, models `STANDARD.encode`. -/
def b64EncodeChunks : List Nat → List Char
  | [] => []
  | [a] => [b64CharOf (a / 4), b64CharOf (a % 4 * 16), '=', '=']
  | [a, b] => [b64CharOf (a / 4), b64CharOf (a % 4 * 16 + b / 16),
      b64CharOf (b % 16 * 4), '=']
  | a :: b :: d :: rest =>
    b64CharOf (a / 4) :: b64CharOf (a % 4 * 16 + b / 16) ::
      b64CharOf (b % 16 * 4 + d / 64) :: b64CharOf (d % 64) ::
      b64EncodeChunks rest

def b64Encode (bs : List Nat) : String := ⟨b64EncodeChunks bs⟩

/-- Strict decoder for padded standard base64, models `STANDARD.decode`
(which requires canonical padding and rejects non-zero trailing bits). -/
def b64DecodeChunks : List Char → Option (List Nat)
  | [] => some []
  | c1 :: c2 :: c3 :: c4 :: rest =>
    match b64IndexOf c1, b64IndexOf c2 with
    | some a, some b =>
      if c3 = '=' then
        if c4 = '=' ∧ rest = [] ∧ b % 16 = 0 then some [a * 4 + b / 16] else none
      else
        match b64IndexOf c3 with
        | some c =>
          if c4 = '=' then
            if rest = [] ∧ c % 4 = 0 then some [a * 4 + b / 16, b % 16 * 16 + c / 4]
            else none
          else
            match b64IndexOf c4 with
            | some d =>
              (b64DecodeChunks rest).map
                (fun tail => (a * 4 + b / 16) :: (b % 16 * 16 + c / 4) ::
                  (c % 4 * 64 + d) :: tail)
            | none => none
        | none => none
    | _, _ => none
  | _ => none

def b64Decode (s : String) : Option (List Nat) := b64DecodeChunks s.data

/-! ## Decimal printing/parsing (models `format!("{n}")` and `usize::from_str`) -/

def digitChar (d : Nat) : Char := Char.ofNat (48 + d)

/-- Decimal digits of `n`; `fuel`-structured (any `fuel > n` agrees). -/
def natDecimalAux : Nat → Nat → List Char
  | 0, _ => []
  | fuel + 1, n =>
    if n < 10 then [digitChar n]
    else natDecimalAux fuel (n / 10) ++ [digitChar (n % 10)]

def natDecimalChars (n : Nat) : List Char := natDecimalAux (n + 1) n

/-- Decimal rendering of a `usize`, models `format!("{n}")`. -/
def natDecimal (n : Nat) : String := ⟨natDecimalChars n⟩

/-- ASCII digit test (`char::is_ascii_digit` / what `usize::from_str` accepts). -/
def isDigitChar (c : Char) : Bool := decide (48 ≤ c.toNat ∧ c.toNat ≤ 57)

def parseDigits : List Char → Nat → Option Nat
  | [], acc => some acc
  | c :: rest, acc =>
    if isDigitChar c then parseDigits rest (acc * 10 + (c.toNat - 48)) else none

/-- Models `str::parse::<usize>()`: optional leading `+`, then one or more
ASCII digits.  (Overflow of the 64-bit range is not modelled; the indices in
scope are small.) -/
def parseUsize (s : String) : Option Nat :=
  match s.data with
  | [] => none
  | '+' :: rest =>
    match rest with
    | [] => none
    | _ => parseDigits rest 0
  | l => parseDigits l 0

/-! ## Round-trip facts for the two byte-level encodings -/

theorem charToNat_ofNat {n : Nat} (h : n.isValidChar) : (Char.ofNat n).toNat = n := by
  simp [Char.ofNat, Char.ofNatAux, h, Char.toNat, UInt32.toNat, BitVec.toNat_ofNatLt]

theorem char_toNat_lt (c : Char) : c.toNat < 0x110000 := by
  rcases c.valid with hv | ⟨hv1, hv2⟩
  · show c.val.toNat < 0x110000
    omega
  · exact hv2

theorem utf8EncodeChar_lt_256 (c : Char) : ∀ b ∈ utf8EncodeChar c, b < 256 := by
  intro b hb
  have h4 : c.toNat < 0x110000 := char_toNat_lt c
  simp only [utf8EncodeChar] at hb
  split at hb
  · simp only [List.mem_singleton] at hb; omega
  · split at hb
    · simp only [List.mem_cons, List.not_mem_nil, or_false] at hb
      rcases hb with h | h <;> omega
    · split at hb
      · simp only [List.mem_cons, List.not_mem_nil, or_false] at hb
        rcases hb with h | h | h <;> omega
      · simp only [List.mem_cons, List.not_mem_nil, or_false] at hb
        rcases hb with h | h | h | h <;> omega

theorem utf8EncodeList_cons (c : Char) (cs : List Char) :
    utf8EncodeList (c :: cs) = utf8EncodeChar c ++ utf8EncodeList cs := by
  simp [utf8EncodeList]

theorem char_not_surrogate (c : Char) :
    ¬(0xD800 ≤ c.toNat ∧ c.toNat < 0xE000) := by
  rcases c.valid with hv | ⟨hv1, hv2⟩
  · show ¬(0xD800 ≤ c.val.toNat ∧ c.val.toNat < 0xE000)
    omega
  · show ¬(0xD800 ≤ c.val.toNat ∧ c.val.toNat < 0xE000)
    omega

theorem utf8DecodeAux_encode (cs : List Char) :
    ∀ fuel, (utf8EncodeList cs).length < fuel →
      utf8DecodeAux fuel (utf8EncodeList cs) = some cs := by
  induction cs with
  | nil =>
    intro fuel h
    match fuel with
    | fuel + 1 => rfl
  | cons c cs ih =>
    intro fuel h
    rw [utf8EncodeList_cons] at h ⊢
    have hsur := char_not_surrogate c
    have hlt := char_toNat_lt c
    by_cases h1 : c.toNat < 0x80
    · have he : utf8EncodeChar c = [c.toNat] := by
        simp [utf8EncodeChar, h1]
      rw [he] at h ⊢
      match fuel, h with
      | fuel + 1, h =>
        rw [List.singleton_append]
        simp only [utf8DecodeAux]
        rw [if_pos h1, ih fuel (by simp at h ⊢; omega), Char.ofNat_toNat]
        rfl
    · by_cases h2 : c.toNat < 0x800
      · have he : utf8EncodeChar c =
            [0xC0 + c.toNat / 64, 0x80 + c.toNat % 64] := by
          simp [utf8EncodeChar, h1, h2]
        rw [he] at h ⊢
        match fuel, h with
        | fuel + 1, h =>
          rw [show ([0xC0 + c.toNat / 64, 0x80 + c.toNat % 64] ++
            utf8EncodeList cs) = (0xC0 + c.toNat / 64) :: (0x80 + c.toNat % 64) ::
            utf8EncodeList cs from rfl]
          simp only [utf8DecodeAux]
          rw [if_neg (by omega), if_neg (by omega), if_pos (by omega)]
          rw [if_pos (by exact ⟨by omega, by omega⟩)]
          have harith : (0xC0 + c.toNat / 64 - 0xC0) * 64 +
              (0x80 + c.toNat % 64 - 0x80) = c.toNat := by omega
          rw [harith, ih fuel (by simp at h ⊢; omega), Char.ofNat_toNat]
          rfl
      · by_cases h3 : c.toNat < 0x10000
        · have he : utf8EncodeChar c = [0xE0 + c.toNat / 4096,
              0x80 + c.toNat / 64 % 64, 0x80 + c.toNat % 64] := by
            simp [utf8EncodeChar, h1, h2, h3]
          rw [he] at h ⊢
          match fuel, h with
          | fuel + 1, h =>
            rw [show ([0xE0 + c.toNat / 4096, 0x80 + c.toNat / 64 % 64,
              0x80 + c.toNat % 64] ++ utf8EncodeList cs) =
              (0xE0 + c.toNat / 4096) :: (0x80 + c.toNat / 64 % 64) ::
              (0x80 + c.toNat % 64) :: utf8EncodeList cs from rfl]
            simp only [utf8DecodeAux]
            rw [if_neg (by omega), if_neg (by omega), if_neg (by omega),
              if_pos (by omega)]
            rw [if_pos (by exact ⟨⟨by omega, by omega⟩, by omega, by omega⟩)]
            have harith : (0xE0 + c.toNat / 4096 - 0xE0) * 4096 +
                (0x80 + c.toNat / 64 % 64 - 0x80) * 64 +
                (0x80 + c.toNat % 64 - 0x80) = c.toNat := by omega
            rw [harith, if_pos (by exact ⟨by omega, by omega⟩)]
            rw [ih fuel (by simp at h ⊢; omega), Char.ofNat_toNat]
            rfl
        · have he : utf8EncodeChar c = [0xF0 + c.toNat / 262144,
              0x80 + c.toNat / 4096 % 64, 0x80 + c.toNat / 64 % 64,
              0x80 + c.toNat % 64] := by
            simp [utf8EncodeChar, h1, h2, h3]
          rw [he] at h ⊢
          match fuel, h with
          | fuel + 1, h =>
            rw [show ([0xF0 + c.toNat / 262144, 0x80 + c.toNat / 4096 % 64,
              0x80 + c.toNat / 64 % 64, 0x80 + c.toNat % 64] ++
              utf8EncodeList cs) = (0xF0 + c.toNat / 262144) ::
              (0x80 + c.toNat / 4096 % 64) :: (0x80 + c.toNat / 64 % 64) ::
              (0x80 + c.toNat % 64) :: utf8EncodeList cs from rfl]
            simp only [utf8DecodeAux]
            rw [if_neg (by omega), if_neg (by omega), if_neg (by omega),
              if_neg (by omega), if_pos (by omega)]
            rw [if_pos (by exact ⟨⟨by omega, by omega⟩, ⟨by omega, by omega⟩,
              by omega, by omega⟩)]
            have harith : (0xF0 + c.toNat / 262144 - 0xF0) * 262144 +
                (0x80 + c.toNat / 4096 % 64 - 0x80) * 4096 +
                (0x80 + c.toNat / 64 % 64 - 0x80) * 64 +
                (0x80 + c.toNat % 64 - 0x80) = c.toNat := by omega
            rw [harith, if_pos (by exact ⟨by omega, by omega⟩)]
            rw [ih fuel (by simp at h ⊢; omega), Char.ofNat_toNat]
            rfl

/-- `String::from_utf8(s.as_bytes().to_vec())` gives back `s`:
the strict decoder inverts the encoder. -/
theorem utf8_roundtrip (cs : List Char) :
    utf8DecodeList (utf8EncodeList cs) = some cs :=
  utf8DecodeAux_encode cs _ (Nat.lt_succ_self _)

theorem b64IndexOf_charOf : ∀ n, n < 64 → b64IndexOf (b64CharOf n) = some n := by
  decide

theorem b64CharOf_ne_eq : ∀ n, n < 64 → ¬(b64CharOf n = '=') := by
  decide

/-- `STANDARD.decode(STANDARD.encode(bs)) == bs` for byte inputs. -/
theorem b64_roundtrip (bs : List Nat) (h : ∀ b ∈ bs, b < 256) :
    b64DecodeChunks (b64EncodeChunks bs) = some bs := by
  induction bs using b64EncodeChunks.induct with
  | case1 => rfl
  | case2 a =>
    have ha : a < 256 := h a (by simp)
    have e0 : a % 4 * 16 % 16 = 0 := by omega
    have e1 : a / 4 * 4 + a % 4 * 16 / 16 = a := by omega
    simp only [b64EncodeChunks, b64DecodeChunks,
      b64IndexOf_charOf (a / 4) (by omega),
      b64IndexOf_charOf (a % 4 * 16) (by omega)]
    simp [e0]
    omega
  | case3 a b =>
    have ha : a < 256 := h a (by simp)
    have hb : b < 256 := h b (by simp)
    have e0 : b % 16 * 4 % 4 = 0 := by omega
    have e1 : a / 4 * 4 + (a % 4 * 16 + b / 16) / 16 = a := by omega
    have e2 : (a % 4 * 16 + b / 16) % 16 * 16 + b % 16 * 4 / 4 = b := by omega
    have n3 : ¬(b64CharOf (b % 16 * 4) = '=') := b64CharOf_ne_eq _ (by omega)
    simp only [b64EncodeChunks, b64DecodeChunks,
      b64IndexOf_charOf (a / 4) (by omega),
      b64IndexOf_charOf (a % 4 * 16 + b / 16) (by omega),
      b64IndexOf_charOf (b % 16 * 4) (by omega)]
    simp [n3, e0]
    omega
  | case4 a b d rest ih =>
    have ha : a < 256 := h a (by simp)
    have hb : b < 256 := h b (by simp)
    have hd : d < 256 := h d (by simp)
    have hrest : ∀ x ∈ rest, x < 256 := fun x hx => h x (by simp [hx])
    have e1 : a / 4 * 4 + (a % 4 * 16 + b / 16) / 16 = a := by omega
    have e2 : (a % 4 * 16 + b / 16) % 16 * 16 + (b % 16 * 4 + d / 64) / 4 = b := by
      omega
    have e3 : (b % 16 * 4 + d / 64) % 4 * 64 + d % 64 = d := by omega
    have n3 : ¬(b64CharOf (b % 16 * 4 + d / 64) = '=') :=
      b64CharOf_ne_eq _ (by omega)
    have n4 : ¬(b64CharOf (d % 64) = '=') := b64CharOf_ne_eq _ (by omega)
    simp only [b64EncodeChunks, b64DecodeChunks,
      b64IndexOf_charOf (a / 4) (by omega),
      b64IndexOf_charOf (a % 4 * 16 + b / 16) (by omega),
      b64IndexOf_charOf (b % 16 * 4 + d / 64) (by omega),
      b64IndexOf_charOf (d % 64) (by omega)]
    simp [n3, n4, ih hrest]
    omega

theorem utf8Encode_lt_256 (s : String) : ∀ b ∈ utf8Encode s, b < 256 := by
  intro b hb
  simp only [utf8Encode, utf8EncodeList, List.mem_flatMap] at hb
  obtain ⟨c, _, hc⟩ := hb
  exact utf8EncodeChar_lt_256 c b hc

/-- Decoding the standard-base64 form of the UTF-8 bytes of `k` recovers
the byte list exactly. -/
theorem key_bytes_roundtrip (k : String) :
    b64Decode (b64Encode (utf8Encode k)) = some (utf8Encode k) :=
  b64_roundtrip _ (utf8Encode_lt_256 k)

/-! ## Decimal printing inverts to parsing -/

theorem toNat_digitChar {d : Nat} (h : d < 10) : (digitChar d).toNat = 48 + d :=
  charToNat_ofNat (Or.inl (by omega))

theorem natDecimalAux_digits :
    ∀ fuel n c, c ∈ natDecimalAux fuel n → 48 ≤ c.toNat ∧ c.toNat ≤ 57 := by
  intro fuel
  induction fuel with
  | zero => intro n c hc; simp [natDecimalAux] at hc
  | succ fuel ih =>
    intro n c hc
    simp only [natDecimalAux] at hc
    split at hc
    · simp only [List.mem_singleton] at hc
      subst hc
      rw [toNat_digitChar (by omega)]
      omega
    · rcases List.mem_append.mp hc with hc | hc
      · exact ih _ c hc
      · simp only [List.mem_singleton] at hc
        subst hc
        rw [toNat_digitChar (by omega)]
        omega

theorem natDecimalAux_ne_nil (fuel n : Nat) (h : n < fuel) :
    natDecimalAux fuel n ≠ [] := by
  match fuel with
  | fuel + 1 =>
    simp only [natDecimalAux]
    split
    · simp
    · simp

theorem parseDigits_append (a b : List Char) :
    ∀ acc, parseDigits (a ++ b) acc =
      match parseDigits a acc with
      | some m => parseDigits b m
      | none => none := by
  induction a with
  | nil => intro acc; rfl
  | cons c rest ih =>
    intro acc
    simp only [List.cons_append, parseDigits]
    split
    · exact ih _
    · rfl

theorem natDecimalAux_parse :
    ∀ fuel n acc, n < fuel →
      parseDigits (natDecimalAux fuel n) acc =
        some (acc * 10 ^ (natDecimalAux fuel n).length + n) := by
  intro fuel
  induction fuel with
  | zero => intro n acc h; omega
  | succ fuel ih =>
    intro n acc h
    simp only [natDecimalAux]
    split
    · next hn =>
      have hd : isDigitChar (digitChar n) = true := by
        simp [isDigitChar, toNat_digitChar (by omega : n < 10)]
        omega
      simp only [parseDigits, hd, if_pos, toNat_digitChar (by omega : n < 10)]
      simp only [List.length_singleton, pow_one]
      congr 1
      omega
    · next hn =>
      have hrec : n / 10 < fuel := by omega
      rw [parseDigits_append, ih (n / 10) acc hrec]
      have hd : isDigitChar (digitChar (n % 10)) = true := by
        simp [isDigitChar, toNat_digitChar (by omega : n % 10 < 10)]
        omega
      simp only [parseDigits, hd, if_pos, toNat_digitChar (by omega : n % 10 < 10)]
      congr 1
      rw [List.length_append, List.length_singleton, pow_succ]
      have hmod := Nat.div_add_mod n 10
      set u := acc * 10 ^ (natDecimalAux fuel (n / 10)).length with hu
      rw [← mul_assoc]
      omega

theorem parseUsize_natDecimal (n : Nat) : parseUsize (natDecimal n) = some n := by
  have hdig := natDecimalAux_digits (n + 1) n
  have hne := natDecimalAux_ne_nil (n + 1) n (by omega)
  have hparse := natDecimalAux_parse (n + 1) n 0 (by omega)
  rcases hc : natDecimalAux (n + 1) n with _ | ⟨c, cl⟩
  · exact absurd hc hne
  · have hcd := hdig c (by rw [hc]; exact List.mem_cons_self c cl)
    have hcp : c ≠ '+' := by
      intro he
      subst he
      have h43 : ('+' : Char).toNat = 43 := by decide
      omega
    have hdata : (natDecimal n).data = c :: cl := by
      simp only [natDecimal, natDecimalChars, hc]
    rw [parseUsize.eq_def, hdata]
    have hres : parseDigits (c :: cl) 0 = some n := by
      rw [← hc]
      rw [hparse]
      simp
    split
    · next heq => simp at heq
    · next rest heq =>
      exfalso
      apply hcp
      have : c :: cl = '+' :: rest := heq
      exact (List.cons.injEq _ _ _ _ ▸ this).1
    · exact hres

/-! ## String helpers (byte-level Rust string operations on `.data`) -/

/-- Models `str::starts_with` (for ASCII patterns byte prefix = char prefix). -/
def strStartsWith (s p : String) : Bool := p.data.isPrefixOf s.data

/-- Models `&s[n..]` where the first `n` characters are ASCII. -/
def strDrop (n : Nat) (s : String) : String := ⟨s.data.drop n⟩

theorem strStartsWith_append (p : String) (l : List Char) :
    strStartsWith ⟨p.data ++ l⟩ p = true := by
  simp only [strStartsWith]
  exact List.isPrefixOf_iff_prefix.mpr ⟨l, rfl⟩

/-! ## Child-name grammar of the codec -/

/-- `format!("elem_{n}_{id}")`: the fresh-token argument is the uniqueness
suffix (a UUID in the source, embedded as a counter rendered in decimal —
all that matters to the code is that tokens are opaque and fresh). -/
def elemName (n tok : Nat) : String :=
  "elem_" ++ natDecimal n ++ "_" ++ natDecimal tok

/-- `format!("key_{}", STANDARD.encode(name))`. -/
def keyName (k : String) : String := "key_" ++ b64Encode (utf8Encode k)

/-- Index extraction from an array child name (after the `starts_with("elem_")`
filter): `s[5..]`, then `split_at(find('_')?)`, then `parse::<usize>()`.
`none` models the `filter_map` dropping the entry. -/
def parseElemName (name : String) : Option Nat :=
  if ((strDrop 5 name).data.takeWhile (fun c => c != '_')).length =
      (strDrop 5 name).data.length then
    none
  else parseUsize ⟨(strDrop 5 name).data.takeWhile (fun c => c != '_')⟩

theorem takeWhile_no_underscore (l : List Char) (t : List Char)
    (h : ∀ c ∈ l, c ≠ '_') :
    (l ++ '_' :: t).takeWhile (fun c => c != '_') = l := by
  induction l with
  | nil => simp [List.takeWhile]
  | cons c rest ih =>
    have hc : (c != '_') = true := bne_iff_ne.mpr (h c (List.mem_cons_self c rest))
    simp only [List.cons_append, List.takeWhile_cons, hc, if_pos]
    rw [ih fun x hx => h x (List.mem_cons_of_mem c hx)]

theorem elemName_data (n tok : Nat) :
    (elemName n tok).data = "elem_".data ++
      ((natDecimal n).data ++ '_' :: (natDecimal tok).data) := by
  simp [elemName, String.data_append, List.append_assoc]

theorem strStartsWith_elemName (n tok : Nat) :
    strStartsWith (elemName n tok) "elem_" = true := by
  have h := elemName_data n tok
  simp only [strStartsWith]
  rw [show (elemName n tok).data =
    ("elem_" : String).data ++ ((natDecimal n).data ++ '_' :: (natDecimal tok).data)
    from h]
  exact List.isPrefixOf_iff_prefix.mpr ⟨_, rfl⟩

theorem natDecimal_no_underscore (n : Nat) :
    ∀ c ∈ (natDecimal n).data, c ≠ '_' := by
  intro c hc he
  have hb := natDecimalAux_digits (n + 1) n c hc
  subst he
  have h95 : ('_' : Char).toNat = 95 := by decide
  omega

theorem parseElemName_elemName (n tok : Nat) :
    parseElemName (elemName n tok) = some n := by
  have hdrop : (strDrop 5 (elemName n tok)).data =
      (natDecimal n).data ++ '_' :: (natDecimal tok).data := by
    simp only [strDrop, elemName_data]
    rw [show (5 : Nat) = ("elem_" : String).data.length from rfl]
    exact List.drop_left _ _
  have htake := takeWhile_no_underscore (natDecimal n).data
    (natDecimal tok).data (natDecimal_no_underscore n)
  simp only [parseElemName, hdrop, htake]
  rw [if_neg (by
    rw [List.length_append, List.length_cons]
    omega)]
  have : (⟨(natDecimal n).data⟩ : String) = natDecimal n := rfl
  rw [this, parseUsize_natDecimal]

theorem elemName_index_inj {n1 t1 n2 t2 : Nat}
    (h : elemName n1 t1 = elemName n2 t2) : n1 = n2 := by
  have h1 := parseElemName_elemName n1 t1
  rw [h, parseElemName_elemName n2 t2] at h1
  exact (Option.some.injEq _ _ ▸ h1.symm)

theorem keyName_data (k : String) :
    (keyName k).data = "key_".data ++ (b64Encode (utf8Encode k)).data := by
  simp [keyName, String.data_append]

theorem strStartsWith_keyName (k : String) :
    strStartsWith (keyName k) "key_" = true := by
  simp only [strStartsWith, keyName_data]
  exact List.isPrefixOf_iff_prefix.mpr ⟨_, rfl⟩

theorem strDrop_keyName (k : String) :
    strDrop 4 (keyName k) = b64Encode (utf8Encode k) := by
  simp only [strDrop, keyName_data]
  rw [show (4 : Nat) = ("key_" : String).data.length from rfl]
  rw [List.drop_left]

/-- The key encoding is reversible: base64-decoding and UTF-8-decoding the
encoded child name suffix recovers the key byte-for-byte. -/
theorem keyName_roundtrip (k : String) :
    (b64Decode (strDrop 4 (keyName k))).bind utf8DecodeList = some k.data := by
  rw [strDrop_keyName, key_bytes_roundtrip]
  rw [Option.some_bind]
  exact utf8_roundtrip k.data

theorem keyName_inj {k1 k2 : String} (h : keyName k1 = keyName k2) : k1 = k2 := by
  have h1 := keyName_roundtrip k1
  rw [h, keyName_roundtrip] at h1
  have : k1.data = k2.data := by
    injection h1 with h1
    exact h1.symm
  exact congrArg String.mk this

/-! ## Filesystem model

A filesystem subtree is a file (with its byte content) or a directory (with
named children; the child-list order is the `read_dir` enumeration order).
File contents are either the `serde_json` serialization of a value (leaf
files written by `serde_json::to_writer`) or raw text (the `.type` markers
written by `std::fs::write`). -/

inductive FileData where
  | json (v : Jval) : FileData
  | raw (s : String) : FileData

inductive FsNode where
  | file (data : FileData) : FsNode
  | dir (children : List (String × FsNode)) : FsNode

/-- Path lookup of a direct child (directory entries have unique names on a
real filesystem; on duplicate names the model takes the first). -/
def lookupChild : List (String × FsNode) → String → Option FsNode
  | [], _ => none
  | c :: rest, name => if c.1 = name then some c.2 else lookupChild rest name

/-- Writing a direct child: overwrite in place if the name exists, else the
new entry appears at the end of the listing. -/
def setChild : List (String × FsNode) → String → FsNode → List (String × FsNode)
  | [], name, nd => [(name, nd)]
  | c :: rest, name, nd =>
    if c.1 = name then (name, nd) :: rest else c :: setChild rest name nd

/-! ### Computable size measures (recursion fuel) -/

mutual
def Jval.size : Jval → Nat
  | .null => 1
  | .bool _ => 1
  | .num _ => 1
  | .str _ => 1
  | .arr l => 1 + Jval.sizeL l
  | .obj m => 1 + Jval.sizeM m
def Jval.sizeL : List Jval → Nat
  | [] => 0
  | v :: rest => Jval.size v + Jval.sizeL rest
def Jval.sizeM : List (String × Jval) → Nat
  | [] => 0
  | kv :: rest => Jval.size kv.2 + Jval.sizeM rest
end

mutual
def FsNode.size : FsNode → Nat
  | .file _ => 1
  | .dir children => 1 + FsNode.sizeChildren children
def FsNode.sizeChildren : List (String × FsNode) → Nat
  | [] => 0
  | c :: rest => FsNode.size c.2 + FsNode.sizeChildren rest
end

/-! ## Compact JSON serialization (what `serde_json::to_writer` emits).
Only used to model `read_to_string` of a file that holds a JSON document;
the codec itself compares marker strings, which are written raw. -/

def hexDigit (n : Nat) : Char :=
  if n < 10 then Char.ofNat (48 + n) else Char.ofNat (87 + n)

def jsonEscapeChar (c : Char) : List Char :=
  if c = '"' then ['\\', '"']
  else if c = '\\' then ['\\', '\\']
  else if c = Char.ofNat 8 then ['\\', 'b']
  else if c = Char.ofNat 9 then ['\\', 't']
  else if c = Char.ofNat 10 then ['\\', 'n']
  else if c = Char.ofNat 12 then ['\\', 'f']
  else if c = Char.ofNat 13 then ['\\', 'r']
  else if c.toNat < 32 then
    ['\\', 'u', '0', '0', hexDigit (c.toNat / 16), hexDigit (c.toNat % 16)]
  else [c]

def jsonString (s : String) : String :=
  ⟨'"' :: (s.data.flatMap jsonEscapeChar ++ ['"'])⟩

def intDecimal (n : Int) : String :=
  if n < 0 then "-" ++ natDecimal n.natAbs else natDecimal n.natAbs

def joinComma : List String → String
  | [] => ""
  | [s] => s
  | s :: rest => s ++ "," ++ joinComma rest

def jsonCompactF : Nat → Jval → String
  | 0, _ => ""
  | _ + 1, .null => "null"
  | _ + 1, .bool true => "true"
  | _ + 1, .bool false => "false"
  | _ + 1, .num n => intDecimal n
  | _ + 1, .str s => jsonString s
  | fuel + 1, .arr l => "[" ++ joinComma (l.map (jsonCompactF fuel)) ++ "]"
  | fuel + 1, .obj m =>
    "\x7b" ++
      joinComma (m.map fun kv => jsonString kv.1 ++ ":" ++ jsonCompactF fuel kv.2) ++
      "\x7d"

def jsonCompact (v : Jval) : String := jsonCompactF (Jval.size v) v

/-- `std::fs::read_to_string` of a file in the model. -/
def fileString : FileData → String
  | .raw s => s
  | .json v => jsonCompact v

/-! ## The codec (`src/db_fmt.rs`) -/

/-- `ValueToFsError`; the `JSON` variant is unreachable when serializing a
`serde_json::Value` and is kept for shape only. -/
inductive ValueToFsError where
  | ioErr : ValueToFsError
  | jsonErr : ValueToFsError
deriving DecidableEq

/-- `FsToValueError`. -/
inductive FsToValueError where
  | ioErr : FsToValueError
  | jsonErr : FsToValueError
  | badDirType (s : String) : FsToValueError
  | noDirType : FsToValueError
  | base64Err : FsToValueError
  | stringDecodeErr : FsToValueError
deriving DecidableEq

/-- `std::fs::read_to_string(path.join(".type"))`, as used on line 107:
succeeds only if the child exists and is a file. -/
def readMarker (children : List (String × FsNode)) : Option String :=
  match lookupChild children ".type" with
  | some (.file fd) => some (fileString fd)
  | _ => none

/-- `std::fs::write(path.join(name), s)`: fails if the entry exists and is a
directory, otherwise creates/overwrites the file. -/
def writeFileChild (children : List (String × FsNode)) (name : String)
    (fd : FileData) : Except ValueToFsError (List (String × FsNode)) :=
  match lookupChild children name with
  | some (.dir _) => .error .ioErr
  | _ => .ok (setChild children name (.file fd))

/-- One step of the `for (n, item) in array.iter().enumerate()` loop of
`value_to_fs_inner` (the accumulator carries the current children, the
element index `n`, and the fresh-token counter). -/
def arrStep (rec : Option FsNode → Jval → Nat →
      Except ValueToFsError (FsNode × Nat)) :
    Except ValueToFsError (List (String × FsNode) × Nat × Nat) → Jval →
      Except ValueToFsError (List (String × FsNode) × Nat × Nat)
  | .error err, _ => .error err
  | .ok (children, n, c), e =>
    match rec (lookupChild children (elemName n c)) e (c + 1) with
    | .error err => .error err
    | .ok (nd, c') => .ok (setChild children (elemName n c) nd, n + 1, c')

/-- One step of the `for (name, item) in object.iter()` loop. -/
def dictStep (rec : Option FsNode → Jval → Nat →
      Except ValueToFsError (FsNode × Nat)) :
    Except ValueToFsError (List (String × FsNode) × Nat) → (String × Jval) →
      Except ValueToFsError (List (String × FsNode) × Nat)
  | .error err, _ => .error err
  | .ok (children, c), kv =>
    match rec (lookupChild children (keyName kv.1)) kv.2 c with
    | .error err => .error err
    | .ok (nd, c') => .ok (setChild children (keyName kv.1) nd, c')

/-- `value_to_fs_inner` from `src/db_fmt.rs:21-83`, written against the
filesystem model: the argument `old` is what currently exists at `path`
(`none` for a fresh path), the result is the node left at `path`.  The
fresh-token counter `ctr` stands for the `Uuid::new_v4()` supply (one fresh
token per array element, as in the source).  `fuel` is structural recursion
fuel; `value_to_fs_inner` below instantiates it with `sizeOf v`, which is
always sufficient. -/
def encodeF : Nat → Option FsNode → Jval → Nat →
    Except ValueToFsError (FsNode × Nat)
  | 0, _, _, _ => .error .ioErr
  | fuel + 1, old, v, ctr =>
    match v with
    | .arr l =>
      if l.all Jval.isNum then
        -- falls through to the catch-all arm: a single leaf file
        match old with
        | some (.dir _) => .error .ioErr
        | _ => .ok (.file (.json (.arr l)), ctr)
      else
        -- `create_dir_all` fails if a file is in the way
        match old with
        | some (.file _) => .error .ioErr
        | _ =>
          -- remove every existing child whose name starts with "elem_"
          match writeFileChild
              ((match old with
                | some (.dir ch) => ch
                | _ => ([] : List (String × FsNode))).filter
                fun c => !(strStartsWith c.1 "elem_"))
              ".type" (.raw "array") with
          | .error e => .error e
          | .ok ch1 =>
            match l.foldl (arrStep (encodeF fuel)) (.ok (ch1, 0, ctr)) with
            | .error e => .error e
            | .ok (children, _, ctr') => .ok (.dir children, ctr')
    | .obj m =>
      match old with
      | some (.file _) => .error .ioErr
      | _ =>
        match writeFileChild
            ((match old with
              | some (.dir ch) => ch
              | _ => ([] : List (String × FsNode))).filter
              fun c => !(strStartsWith c.1 "key_"))
            ".type" (.raw "dict") with
        | .error e => .error e
        | .ok ch1 =>
          match m.foldl (dictStep (encodeF fuel)) (.ok (ch1, ctr)) with
          | .error e => .error e
          | .ok (children, ctr') => .ok (.dir children, ctr')
    | _ =>
      match old with
      | some (.dir _) => .error .ioErr
      | _ => .ok (.file (.json v), ctr)

def value_to_fs_inner (old : Option FsNode) (v : Jval) (ctr : Nat) :
    Except ValueToFsError (FsNode × Nat) :=
  encodeF (Jval.size v) old v ctr

/-- `value_to_fs` (with `serde_json::to_value` the identity on `Value`). -/
def value_to_fs (old : Option FsNode) (v : Jval) :
    Except ValueToFsError (FsNode × Nat) :=
  value_to_fs_inner old v 0

/-- The element loop in its natural recursive form (proved equal to the
fold inside `encodeF` by `encodeElems_eq_foldl`). -/
def encodeElems (children : List (String × FsNode)) (n ctr : Nat) :
    List Jval → Except ValueToFsError (List (String × FsNode) × Nat × Nat)
  | [] => .ok (children, n, ctr)
  | e :: rest =>
    match value_to_fs_inner (lookupChild children (elemName n ctr)) e (ctr + 1) with
    | .error err => .error err
    | .ok (nd, ctr') => encodeElems (setChild children (elemName n ctr) nd) (n + 1) ctr' rest

/-- The member loop in its natural recursive form. -/
def encodeMembers (children : List (String × FsNode)) (ctr : Nat) :
    List (String × Jval) → Except ValueToFsError (List (String × FsNode) × Nat)
  | [] => .ok (children, ctr)
  | kv :: rest =>
    match value_to_fs_inner (lookupChild children (keyName kv.1)) kv.2 ctr with
    | .error err => .error err
    | .ok (nd, ctr') => encodeMembers (setChild children (keyName kv.1) nd) ctr' rest

/-! ### Decoding -/

/-- Stable insertion into a list sorted by the numeric key. -/
def insertByKey (a : Nat × FsNode) : List (Nat × FsNode) → List (Nat × FsNode)
  | [] => [a]
  | b :: rest => if a.1 ≤ b.1 then a :: b :: rest else b :: insertByKey a rest

/-- Stable sort by the parsed index; models `names.sort_by_key(|(index, _, _)| *index)`
(Rust's `sort_by_key` is a stable sort, and a stable sort's output is
uniquely determined, so any stable sort is a faithful model). -/
def sortByKey : List (Nat × FsNode) → List (Nat × FsNode)
  | [] => []
  | a :: rest => insertByKey a (sortByKey rest)

/-- The `(parsed index, child)` pairs of the `elem_`-children, in listing
order: the `filter`/`filter_map` chain of `fs_to_value_inner`'s array arm
(children whose index does not parse are dropped). -/
def arrIndexed (children : List (String × FsNode)) : List (Nat × FsNode) :=
  children.filterMap fun c =>
    if strStartsWith c.1 "elem_" then (parseElemName c.1).map fun i => (i, c.2)
    else none

/-- The array children sorted ascending by parsed index (ties keep listing
order, as Rust's stable `sort_by_key` does). -/
def sortedElems (children : List (String × FsNode)) : List FsNode :=
  (sortByKey (arrIndexed children)).map (·.2)

/-- Short-circuiting map in the `Except` monad (`collect::<Result<_, _>>`). -/
def mapE {α β ε : Type} (f : α → Except ε β) : List α → Except ε (List β)
  | [] => .ok []
  | a :: l =>
    match f a with
    | .error e => .error e
    | .ok b =>
      match mapE f l with
      | .error e => .error e
      | .ok bs => .ok (b :: bs)

/-- The key-decoding pass of the dict arm (`src/db_fmt.rs:134-145`): filter
the `key_`-children, base64-decode the suffix, UTF-8-decode the bytes;
collected into a `Result` before any child value is decoded. -/
def decodeDictKeys (children : List (String × FsNode)) :
    Except FsToValueError (List (String × FsNode)) :=
  mapE (fun c =>
      match b64Decode (strDrop 4 c.1) with
      | none => .error .base64Err
      | some bytes =>
        match utf8DecodeList bytes with
        | none => .error .stringDecodeErr
        | some chars => .ok (String.mk chars, c.2))
    (children.filter fun c => strStartsWith c.1 "key_")

/-- Assemble the decoded elements into `Value::Array` (the final `collect`
of the array arm). -/
def finishArr : Except FsToValueError (List Jval) → Except FsToValueError Jval
  | .error e => .error e
  | .ok elems => .ok (.arr elems)

/-- Assemble the decoded members into `Value::Object`. -/
def finishObj : Except FsToValueError (List (String × Jval)) →
    Except FsToValueError Jval
  | .error e => .error e
  | .ok members => .ok (.obj members)

/-- Decode one dict member: `fs_to_value(&path).map(|value| (name, value))`. -/
def decodeEntry (dec : FsNode → Except FsToValueError Jval)
    (c : String × FsNode) : Except FsToValueError (String × Jval) :=
  match dec c.2 with
  | .error e => .error e
  | .ok v => .ok (c.1, v)

/-- `fs_to_value_inner` from `src/db_fmt.rs:105-156`, against the model
(`fuel` as in `encodeF`; `fs_to_value_inner` instantiates it sufficiently). -/
def decodeF : Nat → FsNode → Except FsToValueError Jval
  | _, .file (.json v) => .ok v
  | _, .file (.raw _) => .error .jsonErr
  | 0, .dir _ => .error .ioErr
  | fuel + 1, .dir children =>
    match readMarker children with
    | some "array" => finishArr (mapE (decodeF fuel) (sortedElems children))
    | some "dict" =>
      match decodeDictKeys children with
      | .error e => .error e
      | .ok keys => finishObj (mapE (decodeEntry (decodeF fuel)) keys)
    | some other => .error (.badDirType other)
    | none => .error .noDirType

def fs_to_value_inner (n : FsNode) : Except FsToValueError Jval :=
  decodeF (FsNode.size n) n

/-- `fs_to_value` deserializing to `Value` (`serde_json::from_value` is the
identity there); decoding a path with nothing at it is the
`fs::metadata` IO error. -/
def fs_to_value : Option FsNode → Except FsToValueError Jval
  | none => .error .ioErr
  | some nd => fs_to_value_inner nd

/-! ## Size bounds -/

theorem Jval.size_pos (v : Jval) : 1 ≤ v.size := by
  cases v <;> simp [Jval.size]

theorem Jval.sizeL_mem {e : Jval} : ∀ {l : List Jval}, e ∈ l → e.size ≤ Jval.sizeL l := by
  intro l
  induction l with
  | nil => intro h; simp at h
  | cons v rest ih =>
    intro h
    simp only [Jval.sizeL]
    rcases List.mem_cons.mp h with h | h
    · subst h; omega
    · have := ih h; omega

theorem Jval.sizeM_mem {kv : String × Jval} :
    ∀ {m : List (String × Jval)}, kv ∈ m → kv.2.size ≤ Jval.sizeM m := by
  intro m
  induction m with
  | nil => intro h; simp at h
  | cons p rest ih =>
    intro h
    simp only [Jval.sizeM]
    rcases List.mem_cons.mp h with h | h
    · subst h; omega
    · have := ih h; omega

theorem FsNode.nodeSize_pos (n : FsNode) : 1 ≤ n.size := by
  cases n <;> simp [FsNode.size]

theorem FsNode.sizeChildren_mem {c : String × FsNode} :
    ∀ {children : List (String × FsNode)}, c ∈ children →
      c.2.size ≤ FsNode.sizeChildren children := by
  intro children
  induction children with
  | nil => intro h; simp at h
  | cons p rest ih =>
    intro h
    simp only [FsNode.sizeChildren]
    rcases List.mem_cons.mp h with h | h
    · subst h; omega
    · have := ih h; omega

/-! ## `mapE` facts -/

theorem mapE_congr {α β ε : Type} {f g : α → Except ε β} :
    ∀ (l : List α), (∀ x ∈ l, f x = g x) → mapE f l = mapE g l := by
  intro l
  induction l with
  | nil => intro _; rfl
  | cons a rest ih =>
    intro h
    simp only [mapE]
    rw [h a (List.mem_cons_self a rest), ih fun x hx => h x (List.mem_cons_of_mem _ hx)]

theorem mapE_ok_mem {α β ε : Type} {f : α → Except ε β} :
    ∀ {l : List α} {ys : List β}, mapE f l = .ok ys → ∀ {y}, y ∈ ys →
      ∃ x ∈ l, f x = .ok y := by
  intro l
  induction l with
  | nil =>
    intro ys h y hy
    simp only [mapE] at h
    cases h
    simp at hy
  | cons a rest ih =>
    intro ys h y hy
    simp only [mapE] at h
    cases hfa : f a with
    | error e => rw [hfa] at h; cases h
    | ok b =>
      rw [hfa] at h
      cases hrest : mapE f rest with
      | error e => rw [hrest] at h; cases h
      | ok bs =>
        rw [hrest] at h
        cases h
        rcases List.mem_cons.mp hy with hy | hy
        · exact ⟨a, List.mem_cons_self a rest, by rw [hfa, hy]⟩
        · obtain ⟨x, hx, hfx⟩ := ih hrest hy
          exact ⟨x, List.mem_cons_of_mem _ hx, hfx⟩

theorem mapE_length {α β ε : Type} {f : α → Except ε β} :
    ∀ {l : List α} {ys : List β}, mapE f l = .ok ys → ys.length = l.length := by
  intro l
  induction l with
  | nil => intro ys h; cases h; rfl
  | cons a rest ih =>
    intro ys h
    simp only [mapE] at h
    cases hfa : f a with
    | error e => rw [hfa] at h; cases h
    | ok b =>
      rw [hfa] at h
      cases hrest : mapE f rest with
      | error e => rw [hrest] at h; cases h
      | ok bs =>
        rw [hrest] at h
        cases h
        simp [ih hrest]

/-! ## Encoder: fold bridging and fuel irrelevance -/

theorem foldl_arrStep_congr
    (rec1 rec2 : Option FsNode → Jval → Nat → Except ValueToFsError (FsNode × Nat))
    (l : List Jval) (h : ∀ e ∈ l, ∀ old c, rec1 old e c = rec2 old e c) :
    ∀ acc, l.foldl (arrStep rec1) acc = l.foldl (arrStep rec2) acc := by
  induction l with
  | nil => intro acc; rfl
  | cons e rest ih =>
    intro acc
    simp only [List.foldl_cons]
    have hstep : arrStep rec1 acc e = arrStep rec2 acc e := by
      cases acc with
      | error err => rfl
      | ok t =>
        obtain ⟨children, n, c⟩ := t
        simp only [arrStep]
        rw [h e (List.mem_cons_self e rest) _ _]
    rw [hstep]
    exact ih (fun x hx => h x (List.mem_cons_of_mem _ hx)) _

theorem foldl_dictStep_congr
    (rec1 rec2 : Option FsNode → Jval → Nat → Except ValueToFsError (FsNode × Nat))
    (m : List (String × Jval))
    (h : ∀ kv ∈ m, ∀ old c, rec1 old kv.2 c = rec2 old kv.2 c) :
    ∀ acc, m.foldl (dictStep rec1) acc = m.foldl (dictStep rec2) acc := by
  induction m with
  | nil => intro acc; rfl
  | cons kv rest ih =>
    intro acc
    simp only [List.foldl_cons]
    have hstep : dictStep rec1 acc kv = dictStep rec2 acc kv := by
      cases acc with
      | error err => rfl
      | ok t =>
        obtain ⟨children, c⟩ := t
        simp only [dictStep]
        rw [h kv (List.mem_cons_self kv rest) _ _]
    rw [hstep]
    exact ih (fun x hx => h x (List.mem_cons_of_mem _ hx)) _

theorem encodeF_irrel :
    ∀ (N : Nat) (v : Jval), Jval.size v ≤ N →
      ∀ f g old ctr, Jval.size v ≤ f → Jval.size v ≤ g →
        encodeF f old v ctr = encodeF g old v ctr := by
  intro N
  induction N with
  | zero => intro v hv; have := Jval.size_pos v; omega
  | succ N ih =>
    intro v hv f g old ctr hf hg
    have hvpos := Jval.size_pos v
    obtain ⟨f, rfl⟩ : ∃ f', f = f' + 1 := ⟨f - 1, by omega⟩
    obtain ⟨g, rfl⟩ : ∃ g', g = g' + 1 := ⟨g - 1, by omega⟩
    cases v with
      | null => rfl
      | bool b => rfl
      | num n => rfl
      | str s => rfl
      | arr l =>
        have h2 : Jval.size (.arr l) = 1 + Jval.sizeL l := by simp [Jval.size]
        have hfold : ∀ acc, l.foldl (arrStep (encodeF f)) acc =
            l.foldl (arrStep (encodeF g)) acc := by
          apply foldl_arrStep_congr
          intro e he old' c'
          have h1 := Jval.sizeL_mem he
          refine ih e ?_ f g old' c' ?_ ?_ <;> omega
        simp only [encodeF, hfold]
      | obj m =>
        have h2 : Jval.size (.obj m) = 1 + Jval.sizeM m := by simp [Jval.size]
        have hfold : ∀ acc, m.foldl (dictStep (encodeF f)) acc =
            m.foldl (dictStep (encodeF g)) acc := by
          apply foldl_dictStep_congr
          intro kv hkv old' c'
          have h1 := Jval.sizeM_mem hkv
          refine ih kv.2 ?_ f g old' c' ?_ ?_ <;> omega
        simp only [encodeF, hfold]

theorem encodeF_eq_inner (f : Nat) (v : Jval) (h : Jval.size v ≤ f)
    (old : Option FsNode) (ctr : Nat) :
    encodeF f old v ctr = value_to_fs_inner old v ctr :=
  encodeF_irrel f v h f (Jval.size v) old ctr h le_rfl

theorem foldl_arrStep_error (rec) (l : List Jval) (err : ValueToFsError) :
    l.foldl (arrStep rec) (.error err) = .error err := by
  induction l with
  | nil => rfl
  | cons e rest ih => simpa only [List.foldl_cons, arrStep] using ih

theorem foldl_dictStep_error (rec) (m : List (String × Jval)) (err : ValueToFsError) :
    m.foldl (dictStep rec) (.error err) = .error err := by
  induction m with
  | nil => rfl
  | cons kv rest ih => simpa only [List.foldl_cons, dictStep] using ih

theorem foldl_arrStep_val (l : List Jval) :
    ∀ children n ctr,
      l.foldl (arrStep value_to_fs_inner) (Except.ok (children, n, ctr)) =
        encodeElems children n ctr l := by
  induction l with
  | nil => intro children n ctr; rfl
  | cons e rest ih =>
    intro children n ctr
    simp only [List.foldl_cons, arrStep, encodeElems]
    cases hres : value_to_fs_inner (lookupChild children (elemName n ctr)) e (ctr + 1) with
    | error err => exact foldl_arrStep_error _ _ _
    | ok p =>
      obtain ⟨nd, c'⟩ := p
      exact ih _ _ _

theorem foldl_dictStep_val (m : List (String × Jval)) :
    ∀ children ctr,
      m.foldl (dictStep value_to_fs_inner) (Except.ok (children, ctr)) =
        encodeMembers children ctr m := by
  induction m with
  | nil => intro children ctr; rfl
  | cons kv rest ih =>
    intro children ctr
    simp only [List.foldl_cons, dictStep, encodeMembers]
    cases hres : value_to_fs_inner (lookupChild children (keyName kv.1)) kv.2 ctr with
    | error err => exact foldl_dictStep_error _ _ _
    | ok p =>
      obtain ⟨nd, c'⟩ := p
      exact ih _ _

/-! ## Encoder unfold equations (the Rust match arms of `value_to_fs_inner`) -/

theorem value_to_fs_inner_arr (old : Option FsNode) (l : List Jval) (ctr : Nat) :
    value_to_fs_inner old (.arr l) ctr =
      if l.all Jval.isNum then
        match old with
        | some (.dir _) => .error .ioErr
        | _ => .ok (.file (.json (.arr l)), ctr)
      else
        match old with
        | some (.file _) => .error .ioErr
        | _ =>
          match writeFileChild
              ((match old with
                | some (.dir ch) => ch
                | _ => ([] : List (String × FsNode))).filter
                fun c => !(strStartsWith c.1 "elem_"))
              ".type" (.raw "array") with
          | .error e => .error e
          | .ok ch1 =>
            match encodeElems ch1 0 ctr l with
            | .error e => .error e
            | .ok (children, _, ctr') => .ok (.dir children, ctr') := by
  have hs : Jval.size (.arr l) = Jval.sizeL l + 1 := by simp [Jval.size]; omega
  show encodeF (Jval.size (.arr l)) old (.arr l) ctr = _
  rw [hs]
  have hfold : ∀ acc, l.foldl (arrStep (encodeF (Jval.sizeL l))) acc =
      l.foldl (arrStep value_to_fs_inner) acc := by
    apply foldl_arrStep_congr
    intro e he old' c'
    exact encodeF_eq_inner _ _ (Jval.sizeL_mem he) _ _
  simp only [encodeF, hfold, foldl_arrStep_val]

theorem value_to_fs_inner_obj (old : Option FsNode) (m : List (String × Jval))
    (ctr : Nat) :
    value_to_fs_inner old (.obj m) ctr =
      match old with
      | some (.file _) => .error .ioErr
      | _ =>
        match writeFileChild
            ((match old with
              | some (.dir ch) => ch
              | _ => ([] : List (String × FsNode))).filter
              fun c => !(strStartsWith c.1 "key_"))
            ".type" (.raw "dict") with
        | .error e => .error e
        | .ok ch1 =>
          match encodeMembers ch1 ctr m with
          | .error e => .error e
          | .ok (children, ctr') => .ok (.dir children, ctr') := by
  have hs : Jval.size (.obj m) = Jval.sizeM m + 1 := by simp [Jval.size]; omega
  show encodeF (Jval.size (.obj m)) old (.obj m) ctr = _
  rw [hs]
  have hfold : ∀ acc, m.foldl (dictStep (encodeF (Jval.sizeM m))) acc =
      m.foldl (dictStep value_to_fs_inner) acc := by
    apply foldl_dictStep_congr
    intro kv hkv old' c'
    exact encodeF_eq_inner _ _ (Jval.sizeM_mem hkv) _ _
  simp only [encodeF, hfold, foldl_dictStep_val]

/-! ## Sorting: permutation, sortedness, membership -/

theorem mem_insertByKey {x a : Nat × FsNode} :
    ∀ {l : List (Nat × FsNode)}, x ∈ insertByKey a l ↔ x = a ∨ x ∈ l := by
  intro l
  induction l with
  | nil => simp [insertByKey]
  | cons b rest ih =>
    simp only [insertByKey]
    split
    · simp
    · simp only [List.mem_cons, ih]
      tauto

theorem insertByKey_perm (a : Nat × FsNode) :
    ∀ (l : List (Nat × FsNode)), (insertByKey a l).Perm (a :: l) := by
  intro l
  induction l with
  | nil => simp [insertByKey]
  | cons b rest ih =>
    simp only [insertByKey]
    split
    · exact List.Perm.refl _
    · exact (List.Perm.cons b ih).trans (List.Perm.swap a b rest)

theorem sortByKey_perm : ∀ (l : List (Nat × FsNode)), (sortByKey l).Perm l := by
  intro l
  induction l with
  | nil => exact List.Perm.refl _
  | cons a rest ih =>
    simp only [sortByKey]
    exact (insertByKey_perm a (sortByKey rest)).trans (List.Perm.cons a ih)

theorem mem_sortByKey {x : Nat × FsNode} {l : List (Nat × FsNode)} :
    x ∈ sortByKey l ↔ x ∈ l :=
  (sortByKey_perm l).mem_iff

theorem insertByKey_pairwise {a : Nat × FsNode} :
    ∀ {l : List (Nat × FsNode)}, l.Pairwise (fun x y => x.1 ≤ y.1) →
      (insertByKey a l).Pairwise (fun x y => x.1 ≤ y.1) := by
  intro l
  induction l with
  | nil => intro _; simp [insertByKey]
  | cons b rest ih =>
    intro h
    rcases List.pairwise_cons.mp h with ⟨hb, hrest⟩
    simp only [insertByKey]
    split
    · next hab =>
      refine List.pairwise_cons.mpr ⟨?_, h⟩
      intro x hx
      rcases List.mem_cons.mp hx with hx | hx
      · subst hx; exact hab
      · exact le_trans hab (hb x hx)
    · next hab =>
      refine List.pairwise_cons.mpr ⟨?_, ih hrest⟩
      intro x hx
      rcases mem_insertByKey.mp hx with hx | hx
      · subst hx; omega
      · exact hb x hx

theorem sortByKey_pairwise :
    ∀ (l : List (Nat × FsNode)), (sortByKey l).Pairwise (fun x y => x.1 ≤ y.1) := by
  intro l
  induction l with
  | nil => simp [sortByKey]
  | cons a rest ih => exact insertByKey_pairwise ih

theorem insertByKey_of_le {a : Nat × FsNode} :
    ∀ {l : List (Nat × FsNode)}, (∀ x ∈ l, a.1 ≤ x.1) →
      insertByKey a l = a :: l := by
  intro l
  cases l with
  | nil => intro _; rfl
  | cons b rest =>
    intro h
    simp only [insertByKey]
    rw [if_pos (h b (List.mem_cons_self b rest))]

/-- Sorting an already index-sorted list is the identity (used on the
encoder's own output, whose indices are `0, 1, 2, …`). -/
theorem sortByKey_of_pairwise :
    ∀ {l : List (Nat × FsNode)}, l.Pairwise (fun x y => x.1 ≤ y.1) →
      sortByKey l = l := by
  intro l
  induction l with
  | nil => intro _; rfl
  | cons a rest ih =>
    intro h
    rcases List.pairwise_cons.mp h with ⟨ha, hrest⟩
    simp only [sortByKey, ih hrest]
    exact insertByKey_of_le ha

/-- Two permuted lists that are both strictly sorted on the key are equal.
(The strictness comes from index uniqueness; this is what makes decode
order independent of the filesystem enumeration order.) -/
theorem sorted_perm_eq :
    ∀ (l₁ l₂ : List (Nat × FsNode)), l₁.Perm l₂ →
      l₁.Pairwise (fun x y => x.1 < y.1) → l₂.Pairwise (fun x y => x.1 < y.1) →
      l₁ = l₂ := by
  intro l₁
  induction l₁ with
  | nil =>
    intro l₂ hp _ _
    exact (List.Perm.nil_eq hp).symm ▸ rfl
  | cons a t₁ ih =>
    intro l₂ hp h₁ h₂
    cases l₂ with
    | nil => exact absurd hp.symm (by simp)
    | cons b t₂ =>
      rcases List.pairwise_cons.mp h₁ with ⟨ha, ht₁⟩
      rcases List.pairwise_cons.mp h₂ with ⟨hb, ht₂⟩
      have hab : a = b := by
        have haIn : a ∈ b :: t₂ := hp.mem_iff.mp (List.mem_cons_self a t₁)
        rcases List.mem_cons.mp haIn with h | h
        · exact h
        · have hbIn : b ∈ a :: t₁ := hp.symm.mem_iff.mp (List.mem_cons_self b t₂)
          rcases List.mem_cons.mp hbIn with h' | h'
          · exact h'.symm
          · have := hb a h
            have := ha b h'
            omega
      subst hab
      rw [ih t₂ (hp.cons_inv) ht₁ ht₂]

/-! ## Decoder: membership and fuel irrelevance -/

theorem mem_sortedElems {nd : FsNode} {children : List (String × FsNode)}
    (h : nd ∈ sortedElems children) : ∃ name, (name, nd) ∈ children := by
  simp only [sortedElems, List.mem_map] at h
  obtain ⟨p, hp, hnd⟩ := h
  have hp2 : p ∈ arrIndexed children := mem_sortByKey.mp hp
  simp only [arrIndexed, List.mem_filterMap] at hp2
  obtain ⟨c, hc, hfc⟩ := hp2
  split at hfc
  · cases hparse : parseElemName c.1 with
    | none => rw [hparse] at hfc; cases hfc
    | some i =>
      rw [hparse] at hfc
      simp only [Option.map_some', Option.some.injEq] at hfc
      refine ⟨c.1, ?_⟩
      have : nd = c.2 := by rw [← hnd, ← hfc]
      rw [this]
      exact hc
  · cases hfc

theorem mem_decodeDictKeys {children keys : List (String × FsNode)}
    (h : decodeDictKeys children = .ok keys) {k : String} {nd : FsNode}
    (hm : (k, nd) ∈ keys) : ∃ name, (name, nd) ∈ children := by
  obtain ⟨x, hx, hfx⟩ := mapE_ok_mem h hm
  have hxc : x ∈ children := List.mem_of_mem_filter hx
  refine ⟨x.1, ?_⟩
  have hnd : nd = x.2 := by
    split at hfx
    · cases hfx
    · split at hfx
      · cases hfx
      · cases hfx
        rfl
  rw [hnd]
  exact hxc

theorem decodeF_irrel :
    ∀ (f g : Nat) (n : FsNode), FsNode.size n ≤ f → FsNode.size n ≤ g →
      decodeF f n = decodeF g n := by
  intro f
  induction f with
  | zero => intro g n hf; have := FsNode.nodeSize_pos n; omega
  | succ f ih =>
    intro g n hf hg
    cases n with
    | file fd => cases fd <;> cases g <;> rfl
    | dir children =>
      have hs : FsNode.size (.dir children) = 1 + FsNode.sizeChildren children := by
        simp [FsNode.size]
      obtain ⟨g, rfl⟩ : ∃ g', g = g' + 1 := ⟨g - 1, by omega⟩
      have hbound : ∀ nd : FsNode, (∃ name, (name, nd) ∈ children) →
          decodeF f nd = decodeF g nd := by
        rintro nd ⟨name, hmem⟩
        have h1 : nd.size ≤ FsNode.sizeChildren children :=
          FsNode.sizeChildren_mem (c := (name, nd)) hmem
        exact ih g nd (by omega) (by omega)
      have harr : mapE (decodeF f) (sortedElems children) =
          mapE (decodeF g) (sortedElems children) :=
        mapE_congr _ fun x hx => hbound x (mem_sortedElems hx)
      simp only [decodeF]
      split
      · rw [harr]
      · split
        · rfl
        · rename_i keys hk
          refine congrArg finishObj (mapE_congr _ fun c hc => ?_)
          obtain ⟨k, nd⟩ := c
          have hb := hbound nd (mem_decodeDictKeys hk hc)
          simp only [decodeEntry, hb]
      · rfl
      · rfl

theorem decodeF_eq_inner (f : Nat) (n : FsNode) (h : FsNode.size n ≤ f) :
    decodeF f n = fs_to_value_inner n :=
  decodeF_irrel f (FsNode.size n) n h le_rfl

/-! ## Decoder unfold equations -/

theorem fs_to_value_inner_file (fd : FileData) :
    fs_to_value_inner (.file fd) =
      match fd with
      | .json v => .ok v
      | .raw _ => .error .jsonErr := by
  cases fd <;> rfl

theorem fs_to_value_inner_dir (children : List (String × FsNode)) :
    fs_to_value_inner (.dir children) =
      match readMarker children with
      | some "array" => finishArr (mapE fs_to_value_inner (sortedElems children))
      | some "dict" =>
        (match decodeDictKeys children with
         | .error e => .error e
         | .ok keys => finishObj (mapE (decodeEntry fs_to_value_inner) keys))
      | some other => .error (.badDirType other)
      | none => .error .noDirType := by
  have hs : FsNode.size (.dir children) = FsNode.sizeChildren children + 1 := by
    simp [FsNode.size]; omega
  show decodeF (FsNode.size (.dir children)) (.dir children) = _
  rw [hs]
  have hbound : ∀ nd : FsNode, (∃ name, (name, nd) ∈ children) →
      decodeF (FsNode.sizeChildren children) nd = fs_to_value_inner nd := by
    rintro nd ⟨name, hmem⟩
    have h1 : nd.size ≤ FsNode.sizeChildren children :=
      FsNode.sizeChildren_mem (c := (name, nd)) hmem
    exact decodeF_eq_inner _ _ h1
  have harr : mapE (decodeF (FsNode.sizeChildren children)) (sortedElems children) =
      mapE fs_to_value_inner (sortedElems children) :=
    mapE_congr _ fun x hx => hbound x (mem_sortedElems hx)
  simp only [decodeF]
  split
  · rw [harr]
  · split
    · rfl
    · rename_i keys hk
      refine congrArg finishObj (mapE_congr _ fun c hc => ?_)
      obtain ⟨k, nd⟩ := c
      have hb := hbound nd (mem_decodeDictKeys hk hc)
      simp only [decodeEntry, hb]
  · rfl
  · rfl

/-! ## The mutation pipeline (`Backend::work`, `src/app/mod.rs:417-443`)

The pipeline is generic in the tree it mutates: `Backend::work` only ever
clones the tree, hands `&mut` access to each queued closure in order,
persists it, and compares it with `==`.  It is therefore embedded
polymorphically in the tree type `α` (with decidable equality standing for
the derived `PartialEq`); the association-map instantiation below mirrors
`Db { feeds: HashMap<String, Feed> }` for the concrete scenarios. -/

/-- State owned by the pipeline: `store` is the decoded content of the
backing directory (reloaded from disk at the start of every cycle, line
422-426, and rewritten by `value_to_fs` at its end, line 431-436), `db` is
the last snapshot held in `self.db`. -/
structure BackendState (α : Type) where
  store : α
  db : α
deriving DecidableEq

/-- `for mutation in mutations { mutation(&mut new_db, &self.toast)? }`
(lines 427-430): apply the drained batch in submission order; the first
error aborts the whole call. -/
def applyMutations {α ε : Type} : List (α → Except ε α) → α → Except ε α
  | [], db => .ok db
  | m :: rest, db =>
    match m db with
    | .error e => .error e
    | .ok db' => applyMutations rest db'

/-- One iteration of the `loop` in `Backend::work`: reload the tree from
the backing store, apply the batch, persist (`store := newDb` — the code
persists before the equality check), compare with the last snapshot and
publish only on change.  Returns the new state plus the published snapshot,
if any.  A mutation error propagates with `?` before the persist call, so
nothing of the state changes on error (see `runBatches`). -/
def backendStep {α ε : Type} [DecidableEq α] (s : BackendState α)
    (muts : List (α → Except ε α)) :
    Except ε (BackendState α × Option α) :=
  match applyMutations muts s.store with
  | .error e => .error e
  | .ok newDb =>
    if newDb = s.db then .ok ({ store := newDb, db := s.db }, none)
    else .ok ({ store := newDb, db := newDb }, some newDb)

/-- The pipeline loop over successive drained batches: a mutation error
terminates the loop with that error, leaving the backing store and the
last-published snapshot as they were at the start of the failed cycle, and
never processing the remaining batches. -/
def runBatches {α ε : Type} [DecidableEq α] :
    BackendState α → List (List (α → Except ε α)) →
      BackendState α × List α × Option ε
  | s, [] => (s, [], none)
  | s, b :: rest =>
    match backendStep s b with
    | .error e => (s, [], some e)
    | .ok (s', pub) =>
      match runBatches s' rest with
      | (s'', pubs, err) => (s'', pub.toList ++ pubs, err)

/-- `HashMap::insert` on the association-map instantiation. -/
def setAssoc {β : Type} (k : String) (v : β) :
    List (String × β) → List (String × β)
  | [] => [(k, v)]
  | p :: rest => if p.1 = k then (k, v) :: rest else p :: setAssoc k v rest

def lookupAssoc {β : Type} (k : String) : List (String × β) → Option β
  | [] => none
  | p :: rest => if p.1 = k then some p.2 else lookupAssoc k rest

/-- A "set key `k` to `v`" mutation, as in the refresh and commit closures
of the GUI (`db.feeds.insert(url, feed); Ok(())`). -/
def mutSet (k : String) (v : Int) (db : List (String × Int)) :
    Except Unit (List (String × Int)) :=
  .ok (setAssoc k v db)

theorem lookupAssoc_setAssoc {β : Type} (k : String) (v : β) :
    ∀ (m : List (String × β)), lookupAssoc k (setAssoc k v m) = some v := by
  intro m
  induction m with
  | nil => simp [setAssoc, lookupAssoc]
  | cons p rest ih =>
    simp only [setAssoc]
    split
    · simp [lookupAssoc]
    · next hne => simp only [lookupAssoc, if_neg hne, ih]

theorem applyMutations_append {α ε : Type} (l1 l2 : List (α → Except ε α)) :
    ∀ db, applyMutations (l1 ++ l2) db =
      match applyMutations l1 db with
      | .error e => .error e
      | .ok mid => applyMutations l2 mid := by
  induction l1 with
  | nil => intro db; rfl
  | cons m rest ih =>
    intro db
    simp only [List.cons_append, applyMutations]
    cases m db with
    | error e => rfl
    | ok db' => exact ih db'

/-- C3 — Mutations of one drained batch are applied to the freshly loaded
tree strictly in submission (FIFO) order, never reordered: applying a
concatenated batch is applying the first part and then the second part on
its result; and in particular, enqueueing `set k A` before `set k B` leaves
the persisted tree, the recorded snapshot, and any published snapshot with
`k = B` after the cycle. -/
theorem mutation_fifo_order :
    (∀ (α ε : Type) (pre post : List (α → Except ε α)) (db : α),
      applyMutations (pre ++ post) db =
        match applyMutations pre db with
        | .error e => .error e
        | .ok mid => applyMutations post mid) ∧
    (∀ (store db : List (String × Int)) (k : String) (A B : Int),
      ∃ s' pub,
        backendStep (ε := Unit) ⟨store, db⟩ [mutSet k A, mutSet k B] =
          .ok (s', pub) ∧
        lookupAssoc k s'.store = some B ∧
        lookupAssoc k s'.db = some B ∧
        ∀ t, pub = some t → lookupAssoc k t = some B) := by
  constructor
  · intro α ε pre post db
    exact applyMutations_append pre post db
  · intro store db k A B
    have happ : applyMutations [mutSet k A, mutSet k B] store =
        .ok (setAssoc k B (setAssoc k A store)) := rfl
    by_cases hc : setAssoc k B (setAssoc k A store) = db
    · refine ⟨⟨setAssoc k B (setAssoc k A store), db⟩, none, ?_, ?_, ?_, ?_⟩
      · simp [backendStep, happ, hc]
      · exact lookupAssoc_setAssoc k B _
      · rw [← hc]; exact lookupAssoc_setAssoc k B _
      · intro t ht; cases ht
    · refine ⟨⟨setAssoc k B (setAssoc k A store),
        setAssoc k B (setAssoc k A store)⟩, some (setAssoc k B (setAssoc k A store)),
        ?_, ?_, ?_, ?_⟩
      · simp [backendStep, happ, hc]
      · exact lookupAssoc_setAssoc k B _
      · exact lookupAssoc_setAssoc k B _
      · intro t ht
        cases ht
        exact lookupAssoc_setAssoc k B _

theorem mutation_fifo_order_witness :
    applyMutations (α := Nat) (ε := Unit)
        ([fun n => .ok (n + 1)] ++ [fun n => .ok (n * 2)]) 3 = .ok 8 ∧
    (∃ s' pub,
      backendStep (ε := Unit) ⟨[], []⟩ [mutSet "k" 1, mutSet "k" 2] =
        .ok (s', pub) ∧
      lookupAssoc "k" s'.store = some 2 ∧
      lookupAssoc "k" s'.db = some 2 ∧
      ∀ t, pub = some t → lookupAssoc "k" t = some 2) := by
  constructor
  · exact (mutation_fifo_order.1 Nat Unit [fun n => .ok (n + 1)]
      [fun n => .ok (n * 2)] 3).trans rfl
  · exact mutation_fifo_order.2 [] [] "k" 1 2

/-- C4 — After a cycle, the new tree is compared for structural equality
with the last published snapshot: if equal, nothing is published and the
baseline is unchanged; if different, exactly one snapshot — equal to the
new tree — is published and recorded as the new baseline. -/
theorem change_suppression {α ε : Type} [DecidableEq α] (s : BackendState α)
    (muts : List (α → Except ε α)) (newDb : α)
    (h : applyMutations muts s.store = .ok newDb) :
    (newDb = s.db →
      backendStep s muts = .ok ({ store := newDb, db := s.db }, none)) ∧
    (newDb ≠ s.db →
      backendStep s muts = .ok ({ store := newDb, db := newDb }, some newDb)) := by
  constructor <;> intro hc <;> simp [backendStep, h, hc]

theorem change_suppression_witness :
    backendStep (ε := Unit) (⟨0, 0⟩ : BackendState Nat) [] =
      .ok (⟨0, 0⟩, none) ∧
    backendStep (ε := Unit) (⟨0, 0⟩ : BackendState Nat) [fun _ => .ok 1] =
      .ok (⟨1, 1⟩, some 1) :=
  ⟨(change_suppression ⟨0, 0⟩ [] 0 rfl).1 rfl,
   (change_suppression ⟨0, 0⟩ [fun _ => .ok 1] 1 rfl).2 (by decide)⟩

/-- C9 — If a mutation of the batch fails, the cycle aborts with that error
before the remaining mutations run, before the tree is persisted, and
before anything is published; the loop terminates with the error (the
remaining batches are never processed) and the backing store and last
snapshot are exactly what they were. -/
theorem mutation_error_fatal {α ε : Type} [DecidableEq α] (s : BackendState α)
    (pre : List (α → Except ε α)) (m : α → Except ε α)
    (post : List (α → Except ε α)) (mid : α) (e : ε)
    (rest : List (List (α → Except ε α)))
    (h1 : applyMutations pre s.store = .ok mid) (h2 : m mid = .error e) :
    backendStep s (pre ++ m :: post) = .error e ∧
    runBatches s ((pre ++ m :: post) :: rest) = (s, [], some e) := by
  have happ : applyMutations (pre ++ m :: post) s.store = .error e := by
    rw [applyMutations_append, h1]
    simp only [applyMutations, h2]
  have hstep : backendStep s (pre ++ m :: post) = .error e := by
    simp [backendStep, happ]
  exact ⟨hstep, by simp [runBatches, hstep]⟩

theorem mutation_error_fatal_witness :
    backendStep (ε := Nat) (⟨5, 5⟩ : BackendState Nat)
        ([fun n => .ok (n + 1)] ++ (fun _ => .error 42) :: [fun _ => .ok 0]) =
      .error 42 ∧
    runBatches (⟨5, 5⟩ : BackendState Nat)
        (([fun n => .ok (n + 1)] ++ (fun _ => .error 42) :: [fun _ => .ok 0]) ::
          [[fun _ => .ok 7]]) =
      (⟨5, 5⟩, [], some 42) :=
  mutation_error_fatal ⟨5, 5⟩ [fun n => .ok (n + 1)] (fun _ => .error 42)
    [fun _ => .ok 0] 6 42 [[fun _ => .ok 7]] rfl rfl

/-! ## Marker and malformed-name claims -/

theorem lookupChild_append_of_some {a : List (String × FsNode)} {n : String}
    {v : FsNode} (h : lookupChild a n = some v) (b : List (String × FsNode)) :
    lookupChild (a ++ b) n = some v := by
  induction a with
  | nil => cases h
  | cons c rest ih =>
    rw [List.cons_append]
    simp only [lookupChild] at h ⊢
    by_cases hc : c.1 = n
    · rw [if_pos hc] at h ⊢
      exact h
    · rw [if_neg hc] at h ⊢
      exact ih h

theorem readMarker_spec {children : List (String × FsNode)} {m : String}
    (h : readMarker children = some m) :
    ∃ fd, lookupChild children ".type" = some (.file fd) ∧ fileString fd = m := by
  simp only [readMarker] at h
  cases hl : lookupChild children ".type" with
  | none => rw [hl] at h; cases h
  | some x =>
    rw [hl] at h
    cases x with
    | file fd =>
      refine ⟨fd, rfl, ?_⟩
      cases h
      rfl
    | dir ch => cases h

/-- C7 — Decoding a directory returns an error unless the marker file is
present with content exactly `"array"` or `"dict"`: a missing (unreadable)
marker gives `NoDirType`, any other marker content `m` gives
`BadDirType m`.  (The model is total, so no panic is possible.) -/
theorem marker_validation (children : List (String × FsNode)) :
    (readMarker children = none →
      fs_to_value_inner (.dir children) = .error .noDirType) ∧
    (∀ m, readMarker children = some m → m ≠ "array" → m ≠ "dict" →
      fs_to_value_inner (.dir children) = .error (.badDirType m)) := by
  constructor
  · intro h
    rw [fs_to_value_inner_dir, h]
  · intro m hm h1 h2
    rw [fs_to_value_inner_dir, hm]
    split <;> simp_all

theorem marker_validation_witness :
    fs_to_value_inner (.dir [(".type", .file (.raw "oops"))]) =
      .error (.badDirType "oops") ∧
    fs_to_value_inner (.dir []) = .error .noDirType :=
  ⟨(marker_validation [(".type", .file (.raw "oops"))]).2 "oops" rfl
      (by decide) (by decide),
    (marker_validation []).1 rfl⟩

/-- C10 — In a directory with marker `"array"`, a child whose name starts
with `elem_` but yields no parsable underscore-delimited decimal index is
silently omitted: adding such a child to the directory does not change the
decode result (in particular decode still succeeds on the well-formed
children, rather than erroring). -/
theorem malformed_elem_child_skipped (children : List (String × FsNode))
    (name : String) (nd : FsNode)
    (hpre : strStartsWith name "elem_" = true)
    (hbad : parseElemName name = none)
    (hm : readMarker children = some "array") :
    fs_to_value_inner (.dir (children ++ [(name, nd)])) =
      fs_to_value_inner (.dir children) := by
  obtain ⟨fd, hl, hfs⟩ := readMarker_spec hm
  have hmarker : readMarker (children ++ [(name, nd)]) = some "array" := by
    simp only [readMarker, lookupChild_append_of_some hl, hfs]
  have hidx : arrIndexed (children ++ [(name, nd)]) = arrIndexed children := by
    simp [arrIndexed, List.filterMap_append, hpre, hbad]
  rw [fs_to_value_inner_dir (children ++ [(name, nd)]), hmarker,
    fs_to_value_inner_dir children, hm]
  show finishArr (mapE fs_to_value_inner (sortedElems (children ++ [(name, nd)]))) =
    finishArr (mapE fs_to_value_inner (sortedElems children))
  rw [show sortedElems (children ++ [(name, nd)]) = sortedElems children from by
    simp only [sortedElems, hidx]]

theorem malformed_elem_child_skipped_witness :
    fs_to_value_inner (.dir ([(".type", .file (.raw "array")),
        ("elem_0_7", .file (.json .null))] ++
        [("elem_oops", .file (.raw "junk"))])) =
      fs_to_value_inner (.dir [(".type", .file (.raw "array")),
        ("elem_0_7", .file (.json .null))]) ∧
    fs_to_value_inner (.dir [(".type", .file (.raw "array")),
        ("elem_0_7", .file (.json .null))]) = .ok (.arr [.null]) :=
  ⟨malformed_elem_child_skipped _ "elem_oops" (.file (.raw "junk")) rfl rfl rfl,
    rfl⟩

/-- C2 (evaluation at the failing input) — The object-key child name is
built with *standard* base64, whose alphabet contains `/`: the key `"???"`
is encoded to the child name `key_Pz8/`, which contains the path separator
`/`, so the claimed path-safety fails; the byte-level reversibility of the
encoding (the rest of the claim) does hold. -/
theorem keyName_not_path_safe :
    keyName "???" = "key_Pz8/" ∧ '/' ∈ (keyName "???").data ∧
    (∀ k : String,
      (b64Decode (strDrop 4 (keyName k))).bind utf8DecodeList = some k.data) :=
  ⟨rfl, by rw [show keyName "???" = "key_Pz8/" from rfl]; decide,
    keyName_roundtrip⟩

/-! ## Decode order independence (C6) -/

theorem lookupChild_perm :
    ∀ {c₁ c₂ : List (String × FsNode)}, c₁.Perm c₂ →
      (c₁.map Prod.fst).Nodup → ∀ n, lookupChild c₁ n = lookupChild c₂ n := by
  intro c₁ c₂ h
  induction h with
  | nil => intro _ n; rfl
  | cons x h ih =>
    intro hnd n
    simp only [lookupChild]
    split
    · rfl
    · exact ih (by simp only [List.map_cons, List.nodup_cons] at hnd; exact hnd.2) n
  | swap x y l =>
    intro hnd n
    have hxy : y.1 ≠ x.1 := by
      simp only [List.map_cons, List.nodup_cons, List.mem_cons] at hnd
      exact fun he => hnd.1 (Or.inl he)
    simp only [lookupChild]
    by_cases hy : y.1 = n <;> by_cases hx : x.1 = n
    · exact absurd (hy.trans hx.symm) hxy
    · simp [hy, hx]
    · simp [hy, hx]
    · simp [hy, hx]
  | trans h1 h2 ih1 ih2 =>
    intro hnd n
    exact (ih1 hnd n).trans (ih2 (((h1.map Prod.fst).nodup_iff).mp hnd) n)

theorem pairwise_lt_of_nodup {l : List (Nat × FsNode)}
    (hle : l.Pairwise (fun x y => x.1 ≤ y.1))
    (hnd : (l.map Prod.fst).Nodup) :
    l.Pairwise (fun x y => x.1 < y.1) := by
  have hne : l.Pairwise (fun x y => x.1 ≠ y.1) := List.pairwise_map.mp hnd
  exact (hle.and hne).imp fun h => lt_of_le_of_ne h.1 h.2

/-- C6 — For a directory with marker `"array"` whose parsed child indices
are unique, the decoded array does not depend on the filesystem
enumeration order (any permutation of the children decodes identically),
and the elements are assembled in ascending order of the parsed decimal
index (which need not be contiguous). -/
theorem array_decode_order_independent (c₁ c₂ : List (String × FsNode))
    (hperm : c₁.Perm c₂)
    (hnames : (c₁.map Prod.fst).Nodup)
    (hidx : ((arrIndexed c₁).map Prod.fst).Nodup)
    (hm : readMarker c₁ = some "array") :
    fs_to_value_inner (.dir c₂) = fs_to_value_inner (.dir c₁) ∧
    ((sortByKey (arrIndexed c₁)).map Prod.fst).Pairwise (· ≤ ·) := by
  have hm₂ : readMarker c₂ = some "array" := by
    simp only [readMarker] at hm ⊢
    rw [← lookupChild_perm hperm hnames ".type"]
    exact hm
  have hidxperm : (arrIndexed c₁).Perm (arrIndexed c₂) := hperm.filterMap _
  have hnd₂base : ((arrIndexed c₂).map Prod.fst).Nodup :=
    ((hidxperm.map Prod.fst).nodup_iff).mp hidx
  have hnd₁ : ((sortByKey (arrIndexed c₁)).map Prod.fst).Nodup :=
    (((sortByKey_perm (arrIndexed c₁)).map Prod.fst).nodup_iff).mpr hidx
  have hnd₂ : ((sortByKey (arrIndexed c₂)).map Prod.fst).Nodup :=
    (((sortByKey_perm (arrIndexed c₂)).map Prod.fst).nodup_iff).mpr hnd₂base
  have heq : sortByKey (arrIndexed c₂) = sortByKey (arrIndexed c₁) := by
    apply sorted_perm_eq
    · exact (sortByKey_perm _).trans (hidxperm.symm.trans (sortByKey_perm _).symm)
    · exact pairwise_lt_of_nodup (sortByKey_pairwise _) hnd₂
    · exact pairwise_lt_of_nodup (sortByKey_pairwise _) hnd₁
  constructor
  · rw [fs_to_value_inner_dir c₂, hm₂, fs_to_value_inner_dir c₁, hm]
    show finishArr (mapE fs_to_value_inner (sortedElems c₂)) =
      finishArr (mapE fs_to_value_inner (sortedElems c₁))
    rw [show sortedElems c₂ = sortedElems c₁ from by simp only [sortedElems, heq]]
  · exact List.pairwise_map.mpr (sortByKey_pairwise _)

theorem array_decode_order_independent_witness :
    (fs_to_value_inner (.dir [(".type", .file (.raw "array")),
        ("elem_0_b", .file (.json (.num 7))), ("elem_2_a", .file (.json (.num 5)))]) =
      fs_to_value_inner (.dir [(".type", .file (.raw "array")),
        ("elem_2_a", .file (.json (.num 5))), ("elem_0_b", .file (.json (.num 7)))]) ∧
      ((sortByKey (arrIndexed [(".type", .file (.raw "array")),
        ("elem_2_a", .file (.json (.num 5))),
        ("elem_0_b", .file (.json (.num 7)))])).map Prod.fst).Pairwise (· ≤ ·)) ∧
    fs_to_value_inner (.dir [(".type", .file (.raw "array")),
        ("elem_2_a", .file (.json (.num 5))), ("elem_0_b", .file (.json (.num 7)))]) =
      .ok (.arr [.num 7, .num 5]) :=
  ⟨array_decode_order_independent
      [(".type", .file (.raw "array")), ("elem_2_a", .file (.json (.num 5))),
        ("elem_0_b", .file (.json (.num 7)))]
      [(".type", .file (.raw "array")), ("elem_0_b", .file (.json (.num 7))),
        ("elem_2_a", .file (.json (.num 5)))]
      (List.Perm.cons _ (List.Perm.swap _ _ _))
      (by decide) (by decide) rfl,
    rfl⟩

/-! ## Well-formed values and the fresh-encode/decode correspondence

`serde_json::Value` objects are maps, so each key occurs once; `Jval.wfB`
states that invariant for the association-list embedding (it is the only
property of `serde_json::Map` the codec relies on). -/

def keysNodupB : List String → Bool
  | [] => true
  | k :: rest => !(rest.contains k) && keysNodupB rest

mutual
def Jval.wfB : Jval → Bool
  | .arr l => Jval.wfLB l
  | .obj m => keysNodupB (m.map Prod.fst) && Jval.wfMB m
  | _ => true
def Jval.wfLB : List Jval → Bool
  | [] => true
  | v :: rest => Jval.wfB v && Jval.wfLB rest
def Jval.wfMB : List (String × Jval) → Bool
  | [] => true
  | kv :: rest => Jval.wfB kv.2 && Jval.wfMB rest
end

theorem Jval.wfLB_mem {l : List Jval} (h : Jval.wfLB l = true) {e : Jval}
    (he : e ∈ l) : Jval.wfB e = true := by
  induction l with
  | nil => simp at he
  | cons v rest ih =>
    simp only [Jval.wfLB, Bool.and_eq_true] at h
    rcases List.mem_cons.mp he with he | he
    · subst he; exact h.1
    · exact ih h.2 he

theorem Jval.wfMB_mem {m : List (String × Jval)} (h : Jval.wfMB m = true)
    {kv : String × Jval} (hm : kv ∈ m) : Jval.wfB kv.2 = true := by
  induction m with
  | nil => simp at hm
  | cons p rest ih =>
    simp only [Jval.wfMB, Bool.and_eq_true] at h
    rcases List.mem_cons.mp hm with hm | hm
    · subst hm; exact h.1
    · exact ih h.2 hm

theorem keysNodupB_cons {k : String} {ks : List String}
    (h : keysNodupB (k :: ks) = true) :
    (∀ x ∈ ks, x ≠ k) ∧ keysNodupB ks = true := by
  simp only [keysNodupB, Bool.and_eq_true, Bool.not_eq_true'] at h
  refine ⟨fun x hx he => ?_, h.2⟩
  subst he
  have hc : ks.contains x = true := List.elem_iff.mpr hx
  rw [h.1] at hc
  cases hc

/-- The shape of the children written by the array-element loop at a fresh
location: element `i` of the encoded list becomes a child named
`elem_{n+i}_{tok}` whose subtree decodes back to that element. -/
inductive ElemKids : Nat → List Jval → List (String × FsNode) → Prop where
  | nil (n : Nat) : ElemKids n [] []
  | cons {n : Nat} {e : Jval} {es : List Jval} {name : String} {nd : FsNode}
      {kids : List (String × FsNode)} :
      strStartsWith name "elem_" = true → parseElemName name = some n →
      fs_to_value_inner nd = .ok e → ElemKids (n + 1) es kids →
      ElemKids n (e :: es) ((name, nd) :: kids)

/-- The shape of the children written by the dict-member loop at a fresh
location. -/
inductive DictKids : List (String × Jval) → List (String × FsNode) → Prop where
  | nil : DictKids [] []
  | cons {k : String} {v : Jval} {ms : List (String × Jval)} {nd : FsNode}
      {kids : List (String × FsNode)} :
      fs_to_value_inner nd = .ok v → DictKids ms kids →
      DictKids ((k, v) :: ms) ((keyName k, nd) :: kids)

theorem elemKids_arrIndexed_cons {n : Nat} {name : String}
    {nd : FsNode} {kids : List (String × FsNode)}
    (h1 : strStartsWith name "elem_" = true) (h2 : parseElemName name = some n) :
    arrIndexed ((name, nd) :: kids) = (n, nd) :: arrIndexed kids := by
  simp [arrIndexed, h1, h2]

theorem elemKids_lb {n : Nat} {es : List Jval} {kids : List (String × FsNode)}
    (h : ElemKids n es kids) : ∀ p ∈ arrIndexed kids, n ≤ p.1 := by
  induction h with
  | nil => intro p hp; simp [arrIndexed] at hp
  | cons h1 h2 h3 h4 ih =>
    intro p hp
    rw [elemKids_arrIndexed_cons h1 h2] at hp
    rcases List.mem_cons.mp hp with hp | hp
    · subst hp; exact le_refl _
    · have := ih p hp; omega

theorem elemKids_pairwise {n : Nat} {es : List Jval}
    {kids : List (String × FsNode)} (h : ElemKids n es kids) :
    (arrIndexed kids).Pairwise (fun x y => x.1 ≤ y.1) := by
  induction h with
  | nil => simp [arrIndexed]
  | cons h1 h2 h3 h4 ih =>
    rw [elemKids_arrIndexed_cons h1 h2]
    refine List.pairwise_cons.mpr ⟨fun p hp => ?_, ih⟩
    have := elemKids_lb h4 p hp
    omega

theorem elemKids_mapE {n : Nat} {es : List Jval} {kids : List (String × FsNode)}
    (h : ElemKids n es kids) :
    mapE fs_to_value_inner ((arrIndexed kids).map Prod.snd) = .ok es := by
  induction h with
  | nil => simp [arrIndexed]; rfl
  | cons h1 h2 h3 h4 ih =>
    rw [elemKids_arrIndexed_cons h1 h2]
    simp only [List.map_cons, mapE, h3, ih]

theorem decode_elemKids {es : List Jval} {kids : List (String × FsNode)}
    (h : ElemKids 0 es kids) :
    fs_to_value_inner (.dir ((".type", .file (.raw "array")) :: kids)) =
      .ok (.arr es) := by
  rw [fs_to_value_inner_dir]
  rw [show readMarker ((".type", FsNode.file (.raw "array")) :: kids) =
    some "array" from rfl]
  show finishArr (mapE fs_to_value_inner
    (sortedElems ((".type", .file (.raw "array")) :: kids))) = .ok (.arr es)
  have hskip : arrIndexed ((".type", FsNode.file (.raw "array")) :: kids) =
      arrIndexed kids := by
    simp [arrIndexed, show strStartsWith ".type" "elem_" = false from by decide]
  rw [show sortedElems ((".type", FsNode.file (.raw "array")) :: kids) =
      (arrIndexed kids).map Prod.snd from by
    simp only [sortedElems, hskip, sortByKey_of_pairwise (elemKids_pairwise h)]]
  rw [elemKids_mapE h]
  rfl

theorem dictKids_decodeKeys {ms : List (String × Jval)}
    {kids : List (String × FsNode)} (h : DictKids ms kids) :
    ∃ keys, decodeDictKeys ((".type", FsNode.file (.raw "dict")) :: kids) =
        .ok keys ∧
      mapE (decodeEntry fs_to_value_inner) keys = .ok ms := by
  have hfilter : ((".type", FsNode.file (FileData.raw "dict")) :: kids).filter
      (fun c => strStartsWith c.1 "key_") =
      kids.filter (fun c => strStartsWith c.1 "key_") := by
    simp [List.filter, show strStartsWith ".type" "key_" = false from by decide]
  rw [decodeDictKeys, hfilter]
  clear hfilter
  induction h with
  | nil => exact ⟨[], rfl, rfl⟩
  | cons hdec hrest ih =>
    rename_i k v ms' nd kids'
    obtain ⟨keys', hk', hm'⟩ := ih
    refine ⟨(k, nd) :: keys', ?_, ?_⟩
    · rw [show ((keyName k, nd) :: kids').filter (fun c => strStartsWith c.1 "key_") =
        (keyName k, nd) :: kids'.filter (fun c => strStartsWith c.1 "key_") from by
          simp [List.filter, strStartsWith_keyName k]]
      have hhead : (match b64Decode (strDrop 4 (keyName k)) with
          | none => Except.error FsToValueError.base64Err
          | some bytes =>
            match utf8DecodeList bytes with
            | none => Except.error FsToValueError.stringDecodeErr
            | some chars => Except.ok (String.mk chars, nd)) =
          Except.ok (k, nd) := by
        rw [strDrop_keyName, key_bytes_roundtrip k]
        show (match utf8DecodeList (utf8Encode k) with
          | none => Except.error FsToValueError.stringDecodeErr
          | some chars => Except.ok (String.mk chars, nd)) = Except.ok (k, nd)
        rw [show utf8DecodeList (utf8Encode k) = some k.data from
          utf8_roundtrip k.data]
      simp only [mapE]
      rw [hhead, hk']
    · simp only [mapE, decodeEntry, hdec, hm']

theorem decode_dictKids {ms : List (String × Jval)}
    {kids : List (String × FsNode)} (h : DictKids ms kids) :
    fs_to_value_inner (.dir ((".type", .file (.raw "dict")) :: kids)) =
      .ok (.obj ms) := by
  obtain ⟨keys, hk, hm⟩ := dictKids_decodeKeys h
  rw [fs_to_value_inner_dir]
  rw [show readMarker ((".type", FsNode.file (.raw "dict")) :: kids) =
    some "dict" from rfl]
  show (match decodeDictKeys ((".type", FsNode.file (.raw "dict")) :: kids) with
    | .error e => Except.error e
    | .ok keys => finishObj (mapE (decodeEntry fs_to_value_inner) keys)) =
      .ok (.obj ms)
  rw [hk]
  show finishObj (mapE (decodeEntry fs_to_value_inner) keys) = .ok (.obj ms)
  rw [hm]
  rfl

/-! ## Fresh-location writes (child name freshness) -/

theorem lookupChild_none {l : List (String × FsNode)} {name : String}
    (h : ∀ c ∈ l, c.1 ≠ name) : lookupChild l name = none := by
  induction l with
  | nil => rfl
  | cons c rest ih =>
    simp only [lookupChild]
    rw [if_neg (h c (List.mem_cons_self c rest))]
    exact ih fun x hx => h x (List.mem_cons_of_mem _ hx)

theorem setChild_fresh_append {l : List (String × FsNode)} {name : String}
    (h : ∀ c ∈ l, c.1 ≠ name) (nd : FsNode) :
    setChild l name nd = l ++ [(name, nd)] := by
  induction l with
  | nil => rfl
  | cons c rest ih =>
    simp only [setChild, List.cons_append]
    rw [if_neg (h c (List.mem_cons_self c rest))]
    rw [ih fun x hx => h x (List.mem_cons_of_mem _ hx)]

/-- The element loop at a fresh location: starting from children `base`
(none of which is `elem_`-prefixed — the marker and survivors of other
schemes) and already-written element children `extra` (all with indices
below `n₀`), the loop appends one child per element with consecutive
indices, and each written subtree decodes back to its element. -/
theorem encodeElems_fresh {elems : List Jval}
    (IH : ∀ e ∈ elems, ∀ c, ∃ nd ctr', value_to_fs_inner none e c = .ok (nd, ctr') ∧
      fs_to_value_inner nd = .ok e) :
    ∀ (base extra : List (String × FsNode)) (n₀ ctr : Nat),
      (∀ c ∈ base, strStartsWith c.1 "elem_" = false) →
      (∀ c ∈ extra, strStartsWith c.1 "elem_" = true ∧
        ∃ j, parseElemName c.1 = some j ∧ j < n₀) →
      ∃ news ctr',
        encodeElems (base ++ extra) n₀ ctr elems =
          .ok (base ++ extra ++ news, n₀ + elems.length, ctr') ∧
        ElemKids n₀ elems news := by
  induction elems with
  | nil =>
    intro base extra n₀ ctr hbase hextra
    refine ⟨[], ctr, ?_, ElemKids.nil n₀⟩
    simp [encodeElems]
  | cons e rest ihrec =>
    intro base extra n₀ ctr hbase hextra
    have hname_pre := strStartsWith_elemName n₀ ctr
    have hname_parse := parseElemName_elemName n₀ ctr
    have hfresh : ∀ c ∈ base ++ extra, c.1 ≠ elemName n₀ ctr := by
      intro c hc
      rcases List.mem_append.mp hc with hc | hc
      · intro he
        have hfalse := hbase c hc
        rw [he, hname_pre] at hfalse
        cases hfalse
      · intro he
        obtain ⟨hsw, j, hj, hlt⟩ := hextra c hc
        rw [he, hname_parse] at hj
        injection hj with hj
        omega
    obtain ⟨nd, ctr₁, henc, hdec⟩ := IH e (List.mem_cons_self e rest) (ctr + 1)
    have hset : setChild (base ++ extra) (elemName n₀ ctr) nd =
        base ++ (extra ++ [(elemName n₀ ctr, nd)]) := by
      rw [setChild_fresh_append hfresh, List.append_assoc]
    have hextra' : ∀ c ∈ extra ++ [(elemName n₀ ctr, nd)],
        strStartsWith c.1 "elem_" = true ∧
          ∃ j, parseElemName c.1 = some j ∧ j < n₀ + 1 := by
      intro c hc
      rcases List.mem_append.mp hc with hc | hc
      · obtain ⟨hsw, j, hj, hlt⟩ := hextra c hc
        exact ⟨hsw, j, hj, by omega⟩
      · simp only [List.mem_singleton] at hc
        subst hc
        exact ⟨hname_pre, n₀, hname_parse, by omega⟩
    obtain ⟨news', ctr', hrec, hkids⟩ :=
      ihrec (fun x hx c => IH x (List.mem_cons_of_mem _ hx) c) base
        (extra ++ [(elemName n₀ ctr, nd)]) (n₀ + 1) ctr₁ hbase hextra'
    refine ⟨(elemName n₀ ctr, nd) :: news', ctr', ?_,
      ElemKids.cons hname_pre hname_parse hdec hkids⟩
    have hstep : encodeElems (base ++ extra) n₀ ctr (e :: rest) =
        encodeElems (base ++ (extra ++ [(elemName n₀ ctr, nd)])) (n₀ + 1) ctr₁
          rest := by
      show (match value_to_fs_inner (lookupChild (base ++ extra) (elemName n₀ ctr))
          e (ctr + 1) with
        | .error err => Except.error err
        | .ok (nd', c') =>
          encodeElems (setChild (base ++ extra) (elemName n₀ ctr) nd') (n₀ + 1)
            c' rest) = _
      rw [lookupChild_none hfresh, henc]
      show encodeElems (setChild (base ++ extra) (elemName n₀ ctr) nd) (n₀ + 1)
        ctr₁ rest = _
      rw [hset]
    rw [hstep, hrec]
    have harith : n₀ + 1 + rest.length = n₀ + (e :: rest).length := by
      simp only [List.length_cons]
      omega
    have hlist : base ++ (extra ++ [(elemName n₀ ctr, nd)]) ++ news' =
        base ++ extra ++ ((elemName n₀ ctr, nd) :: news') := by
      simp [List.append_assoc]
    rw [harith, hlist]

/-- The member loop at a fresh location, with distinct member keys. -/
theorem encodeMembers_fresh {members : List (String × Jval)}
    (IH : ∀ kv ∈ members, ∀ c, ∃ nd ctr',
      value_to_fs_inner none kv.2 c = .ok (nd, ctr') ∧
      fs_to_value_inner nd = .ok kv.2) :
    ∀ (base extra : List (String × FsNode)) (ctr : Nat),
      (∀ c ∈ base, strStartsWith c.1 "key_" = false) →
      (∀ c ∈ extra, ∃ k₀, c.1 = keyName k₀ ∧ ∀ kv ∈ members, kv.1 ≠ k₀) →
      keysNodupB (members.map Prod.fst) = true →
      ∃ news ctr',
        encodeMembers (base ++ extra) ctr members = .ok (base ++ extra ++ news, ctr') ∧
        DictKids members news := by
  induction members with
  | nil =>
    intro base extra ctr hbase hextra hnd
    refine ⟨[], ctr, ?_, DictKids.nil⟩
    simp [encodeMembers]
  | cons kv rest ihrec =>
    obtain ⟨k, v⟩ := kv
    intro base extra ctr hbase hextra hnd
    have hkpre := strStartsWith_keyName k
    have hfresh : ∀ c ∈ base ++ extra, c.1 ≠ keyName k := by
      intro c hc
      rcases List.mem_append.mp hc with hc | hc
      · intro he
        have hfalse := hbase c hc
        rw [he, hkpre] at hfalse
        cases hfalse
      · intro he
        obtain ⟨k₀, hk₀, hne⟩ := hextra c hc
        rw [hk₀] at he
        exact hne (k, v) (List.mem_cons_self _ rest) (keyName_inj he).symm
    obtain ⟨nd, ctr₁, henc, hdec⟩ := IH (k, v) (List.mem_cons_self _ rest) ctr
    have hset : setChild (base ++ extra) (keyName k) nd =
        base ++ (extra ++ [(keyName k, nd)]) := by
      rw [setChild_fresh_append hfresh, List.append_assoc]
    obtain ⟨hrestne, hrestnd⟩ :=
      keysNodupB_cons (by simpa using hnd)
    have hextra' : ∀ c ∈ extra ++ [(keyName k, nd)],
        ∃ k₀, c.1 = keyName k₀ ∧ ∀ kv' ∈ rest, kv'.1 ≠ k₀ := by
      intro c hc
      rcases List.mem_append.mp hc with hc | hc
      · obtain ⟨k₀, hk₀, hne⟩ := hextra c hc
        exact ⟨k₀, hk₀, fun kv' hkv' => hne kv' (List.mem_cons_of_mem _ hkv')⟩
      · simp only [List.mem_singleton] at hc
        subst hc
        refine ⟨k, rfl, fun kv' hkv' => ?_⟩
        exact hrestne kv'.1 (List.mem_map_of_mem Prod.fst hkv')
    obtain ⟨news', ctr', hrec, hkids⟩ :=
      ihrec (fun x hx c => IH x (List.mem_cons_of_mem _ hx) c) base
        (extra ++ [(keyName k, nd)]) ctr₁ hbase hextra' hrestnd
    refine ⟨(keyName k, nd) :: news', ctr', ?_, DictKids.cons hdec hkids⟩
    have hstep : encodeMembers (base ++ extra) ctr ((k, v) :: rest) =
        encodeMembers (base ++ (extra ++ [(keyName k, nd)])) ctr₁ rest := by
      show (match value_to_fs_inner (lookupChild (base ++ extra) (keyName k))
          v ctr with
        | .error err => Except.error err
        | .ok (nd', c') =>
          encodeMembers (setChild (base ++ extra) (keyName k) nd') c' rest) = _
      rw [lookupChild_none hfresh, henc]
      show encodeMembers (setChild (base ++ extra) (keyName k) nd) ctr₁ rest = _
      rw [hset]
    rw [hstep, hrec]
    have hlist : base ++ (extra ++ [(keyName k, nd)]) ++ news' =
        base ++ extra ++ ((keyName k, nd) :: news') := by
      simp [List.append_assoc]
    rw [hlist]

/-- Encoding a well-formed value at a fresh path always succeeds, and
decoding the written filesystem state yields the value back. -/
theorem fresh_encode_spec :
    ∀ (N : Nat) (v : Jval), Jval.size v ≤ N → Jval.wfB v = true →
      ∀ ctr, ∃ nd ctr', value_to_fs_inner none v ctr = .ok (nd, ctr') ∧
        fs_to_value_inner nd = .ok v := by
  intro N
  induction N with
  | zero => intro v hv; have := Jval.size_pos v; omega
  | succ N ih =>
    intro v hs hwf ctr
    cases v with
    | null => exact ⟨.file (.json .null), ctr, rfl, rfl⟩
    | bool b => exact ⟨.file (.json (.bool b)), ctr, rfl, rfl⟩
    | num n => exact ⟨.file (.json (.num n)), ctr, rfl, rfl⟩
    | str s => exact ⟨.file (.json (.str s)), ctr, rfl, rfl⟩
    | arr l =>
      have hsl : Jval.size (.arr l) = 1 + Jval.sizeL l := by simp [Jval.size]
      by_cases hall : l.all Jval.isNum = true
      · refine ⟨.file (.json (.arr l)), ctr, ?_, rfl⟩
        rw [value_to_fs_inner_arr, if_pos hall]
      · have hIH : ∀ e ∈ l, ∀ c, ∃ nd ctr',
            value_to_fs_inner none e c = .ok (nd, ctr') ∧
            fs_to_value_inner nd = .ok e := by
          intro e he c
          have h1 := Jval.sizeL_mem he
          refine ih e (by omega) ?_ c
          exact Jval.wfLB_mem (by simpa [Jval.wfB] using hwf) he
        obtain ⟨news, ctr', henc, hkids⟩ :=
          encodeElems_fresh hIH [(".type", .file (.raw "array"))] [] 0 ctr
            (by
              intro c hc
              simp only [List.mem_singleton] at hc
              subst hc
              decide)
            (by intro c hc; simp at hc)
        rw [List.append_nil] at henc
        refine ⟨.dir ((".type", .file (.raw "array")) :: news), ctr', ?_, ?_⟩
        · rw [value_to_fs_inner_arr, if_neg hall]
          show (match encodeElems [(".type", FsNode.file (.raw "array"))] 0 ctr l with
            | .error e => Except.error e
            | .ok (children, _, c') => Except.ok (FsNode.dir children, c')) = _
          rw [henc]
          rfl
        · exact decode_elemKids hkids
    | obj m =>
      have hsm : Jval.size (.obj m) = 1 + Jval.sizeM m := by simp [Jval.size]
      have hwf2 : keysNodupB (m.map Prod.fst) = true ∧ Jval.wfMB m = true := by
        simpa [Jval.wfB, Bool.and_eq_true] using hwf
      have hIH : ∀ kv ∈ m, ∀ c, ∃ nd ctr',
          value_to_fs_inner none kv.2 c = .ok (nd, ctr') ∧
          fs_to_value_inner nd = .ok kv.2 := by
        intro kv hkv c
        have h1 := Jval.sizeM_mem hkv
        exact ih kv.2 (by omega) (Jval.wfMB_mem hwf2.2 hkv) c
      obtain ⟨news, ctr', henc, hkids⟩ :=
        encodeMembers_fresh hIH [(".type", .file (.raw "dict"))] [] ctr
          (by
            intro c hc
            simp only [List.mem_singleton] at hc
            subst hc
            decide)
          (by intro c hc; simp at hc)
          hwf2.1
      rw [List.append_nil] at henc
      refine ⟨.dir ((".type", .file (.raw "dict")) :: news), ctr', ?_, ?_⟩
      · rw [value_to_fs_inner_obj]
        show (match encodeMembers [(".type", FsNode.file (.raw "dict"))] ctr m with
          | .error e => Except.error e
          | .ok (children, c') => Except.ok (FsNode.dir children, c')) = _
        rw [henc]
        rfl
      · exact decode_dictKids hkids

/-- C1 — Round-trip: encoding any (well-formed, i.e. duplicate-free object
keys, which is an invariant of `serde_json::Map`) value at a fresh path and
decoding the resulting filesystem state yields the value again. -/
theorem encode_decode_roundtrip (v : Jval) (hwf : Jval.wfB v = true) :
    ∃ nd ctr', value_to_fs none v = .ok (nd, ctr') ∧
      fs_to_value (some nd) = .ok v :=
  fresh_encode_spec (Jval.size v) v le_rfl hwf 0

theorem encode_decode_roundtrip_witness :
    ∃ nd ctr',
      value_to_fs none (.obj [("a", .arr [.num 1, .str "x"]), ("b", .null)]) =
        .ok (nd, ctr') ∧
      fs_to_value (some nd) =
        .ok (.obj [("a", .arr [.num 1, .str "x"]), ("b", .null)]) :=
  encode_decode_roundtrip (.obj [("a", .arr [.num 1, .str "x"]), ("b", .null)]) rfl

/-- C5 — An array all of whose elements are numbers is written inline as a
single leaf file holding the JSON array literal (never expanded into a
directory); an array with at least one non-number element is written as a
directory carrying the `"array"` marker.  The concrete scenario
`{"a": [1,2,3], "b": "x"}` produces a `dict`-marked root with one leaf
child per key (the `a` child holding the literal `[1,2,3]`), and decodes
back exactly. -/
theorem numeric_array_inline :
    (∀ (l : List Jval) (ctr : Nat), l.all Jval.isNum = true →
      value_to_fs_inner none (.arr l) ctr = .ok (.file (.json (.arr l)), ctr)) ∧
    (∀ (l : List Jval) (ctr : Nat), ¬(l.all Jval.isNum = true) →
      Jval.wfLB l = true →
      ∃ children ctr',
        value_to_fs_inner none (.arr l) ctr = .ok (.dir children, ctr') ∧
        lookupChild children ".type" = some (.file (.raw "array"))) ∧
    (value_to_fs none (.obj [("a", .arr [.num 1, .num 2, .num 3]), ("b", .str "x")]) =
      .ok (.dir [(".type", .file (.raw "dict")),
        ("key_YQ==", .file (.json (.arr [.num 1, .num 2, .num 3]))),
        ("key_Yg==", .file (.json (.str "x")))], 0) ∧
      jsonCompact (.arr [.num 1, .num 2, .num 3]) = "[1,2,3]" ∧
      fs_to_value (some (.dir [(".type", .file (.raw "dict")),
        ("key_YQ==", .file (.json (.arr [.num 1, .num 2, .num 3]))),
        ("key_Yg==", .file (.json (.str "x")))])) =
        .ok (.obj [("a", .arr [.num 1, .num 2, .num 3]), ("b", .str "x")])) := by
  refine ⟨?_, ?_, rfl, rfl, rfl⟩
  · intro l ctr hall
    rw [value_to_fs_inner_arr, if_pos hall]
  · intro l ctr hall hwfl
    have hIH : ∀ e ∈ l, ∀ c, ∃ nd ctr',
        value_to_fs_inner none e c = .ok (nd, ctr') ∧
        fs_to_value_inner nd = .ok e := by
      intro e he c
      exact fresh_encode_spec (Jval.size e) e le_rfl (Jval.wfLB_mem hwfl he) c
    obtain ⟨news, ctr', henc, hkids⟩ :=
      encodeElems_fresh hIH [(".type", .file (.raw "array"))] [] 0 ctr
        (by
          intro c hc
          simp only [List.mem_singleton] at hc
          subst hc
          decide)
        (by intro c hc; simp at hc)
    rw [List.append_nil] at henc
    refine ⟨(".type", .file (.raw "array")) :: news, ctr', ?_, rfl⟩
    rw [value_to_fs_inner_arr, if_neg hall]
    show (match encodeElems [(".type", FsNode.file (.raw "array"))] 0 ctr l with
      | .error e => Except.error e
      | .ok (children, _, c') => Except.ok (FsNode.dir children, c')) = _
    rw [henc]
    rfl

theorem numeric_array_inline_witness :
    value_to_fs_inner none (.arr [.num 1, .num 2, .num 3]) 0 =
      .ok (.file (.json (.arr [.num 1, .num 2, .num 3])), 0) ∧
    (∃ children ctr',
      value_to_fs_inner none (.arr [.null]) 0 = .ok (.dir children, ctr') ∧
      lookupChild children ".type" = some (.file (.raw "array"))) :=
  ⟨numeric_array_inline.1 [.num 1, .num 2, .num 3] 0 rfl,
    numeric_array_inline.2.1 [.null] 0 (by decide) rfl⟩

/-! ## Re-encoding reconciliation (C8) -/

theorem setChild_subset {l : List (String × FsNode)} {name : String}
    {nd : FsNode} : ∀ c ∈ setChild l name nd, c = (name, nd) ∨ c ∈ l := by
  induction l with
  | nil =>
    intro c hc
    simp only [setChild, List.mem_singleton] at hc
    exact Or.inl hc
  | cons p rest ih =>
    intro c hc
    simp only [setChild] at hc
    split at hc
    · rcases List.mem_cons.mp hc with hc | hc
      · exact Or.inl hc
      · exact Or.inr (List.mem_cons_of_mem _ hc)
    · rcases List.mem_cons.mp hc with hc | hc
      · exact Or.inr (hc ▸ List.mem_cons_self p rest)
      · rcases ih c hc with hc | hc
        · exact Or.inl hc
        · exact Or.inr (List.mem_cons_of_mem _ hc)

theorem setChild_append_not_mem {a : List (String × FsNode)} {name : String}
    (h : ∀ c ∈ a, c.1 ≠ name) (b : List (String × FsNode)) (nd : FsNode) :
    setChild (a ++ b) name nd = a ++ setChild b name nd := by
  induction a with
  | nil => rfl
  | cons c rest ih =>
    simp only [List.cons_append, setChild]
    rw [if_neg (h c (List.mem_cons_self c rest))]
    show c :: setChild (rest ++ b) name nd = c :: (rest ++ setChild b name nd)
    rw [ih fun x hx => h x (List.mem_cons_of_mem _ hx)]

theorem writeFileChild_ok {l : List (String × FsNode)} {n : String}
    {fd : FileData} {r : List (String × FsNode)}
    (h : writeFileChild l n fd = .ok r) : r = setChild l n (.file fd) := by
  unfold writeFileChild at h
  split at h
  · cases h
  · injection h with h
    exact h.symm

theorem encodeElems_shape :
    ∀ (elems : List Jval) (base extra : List (String × FsNode)) (n ctr : Nat)
      (res : List (String × FsNode) × Nat × Nat),
      (∀ c ∈ base, strStartsWith c.1 "elem_" = false) →
      (∀ c ∈ extra, strStartsWith c.1 "elem_" = true) →
      encodeElems (base ++ extra) n ctr elems = .ok res →
      ∃ news, res.1 = base ++ news ∧
        ∀ c ∈ news, strStartsWith c.1 "elem_" = true := by
  intro elems
  induction elems with
  | nil =>
    intro base extra n ctr res hbase hextra h
    simp only [encodeElems] at h
    cases h
    exact ⟨extra, rfl, hextra⟩
  | cons e rest ihrec =>
    intro base extra n ctr res hbase hextra h
    replace h : (match value_to_fs_inner
        (lookupChild (base ++ extra) (elemName n ctr)) e (ctr + 1) with
      | .error err => Except.error err
      | .ok (nd', c') =>
        encodeElems (setChild (base ++ extra) (elemName n ctr) nd') (n + 1)
          c' rest) = .ok res := h
    split at h
    · cases h
    · rename_i nd' c' heq
      have hne : ∀ c ∈ base, c.1 ≠ elemName n ctr := by
        intro c hc he
        have hf := hbase c hc
        rw [he, strStartsWith_elemName] at hf
        cases hf
      rw [setChild_append_not_mem hne] at h
      refine ihrec base (setChild extra (elemName n ctr) nd') (n + 1) c' res
        hbase ?_ h
      intro c hc
      rcases setChild_subset c hc with hc1 | hc1
      · rw [hc1]
        exact strStartsWith_elemName n ctr
      · exact hextra c hc1

theorem encodeMembers_shape :
    ∀ (members : List (String × Jval)) (base extra : List (String × FsNode))
      (ctr : Nat) (res : List (String × FsNode) × Nat),
      (∀ c ∈ base, strStartsWith c.1 "key_" = false) →
      (∀ c ∈ extra, strStartsWith c.1 "key_" = true) →
      encodeMembers (base ++ extra) ctr members = .ok res →
      ∃ news, res.1 = base ++ news ∧
        ∀ c ∈ news, strStartsWith c.1 "key_" = true := by
  intro members
  induction members with
  | nil =>
    intro base extra ctr res hbase hextra h
    simp only [encodeMembers] at h
    cases h
    exact ⟨extra, rfl, hextra⟩
  | cons kv rest ihrec =>
    intro base extra ctr res hbase hextra h
    replace h : (match value_to_fs_inner
        (lookupChild (base ++ extra) (keyName kv.1)) kv.2 ctr with
      | .error err => Except.error err
      | .ok (nd', c') =>
        encodeMembers (setChild (base ++ extra) (keyName kv.1) nd') c' rest) =
        .ok res := h
    split at h
    · cases h
    · rename_i nd' c' heq
      have hne : ∀ c ∈ base, c.1 ≠ keyName kv.1 := by
        intro c hc he
        have hf := hbase c hc
        rw [he, strStartsWith_keyName] at hf
        cases hf
      rw [setChild_append_not_mem hne] at h
      refine ihrec base (setChild extra (keyName kv.1) nd') c' res hbase ?_ h
      intro c hc
      rcases setChild_subset c hc with hc1 | hc1
      · rw [hc1]
        exact strStartsWith_keyName kv.1
      · exact hextra c hc1

/-- C8 (amended) — When a container is re-encoded over a directory that
already holds children, the result consists of: the prior children whose
names do not match the container's naming scheme (`elem_` for arrays,
`key_` for dicts), kept in place and untouched — except the `.type` marker,
which is rewritten with the new container's marker — followed by the newly
written scheme-named children.  In particular every prior scheme-matching
child is removed and every child outside the scheme other than `.type` is
preserved unchanged. -/
theorem reencode_reconciliation :
    (∀ (ch : List (String × FsNode)) (l : List Jval) (ctr ctr' : Nat)
        (children : List (String × FsNode)),
      ¬(l.all Jval.isNum = true) →
      value_to_fs_inner (some (.dir ch)) (.arr l) ctr = .ok (.dir children, ctr') →
      ∃ news,
        children =
          setChild (ch.filter fun c => !(strStartsWith c.1 "elem_")) ".type"
            (.file (.raw "array")) ++ news ∧
        ∀ c ∈ news, strStartsWith c.1 "elem_" = true) ∧
    (∀ (ch : List (String × FsNode)) (m : List (String × Jval)) (ctr ctr' : Nat)
        (children : List (String × FsNode)),
      value_to_fs_inner (some (.dir ch)) (.obj m) ctr = .ok (.dir children, ctr') →
      ∃ news,
        children =
          setChild (ch.filter fun c => !(strStartsWith c.1 "key_")) ".type"
            (.file (.raw "dict")) ++ news ∧
        ∀ c ∈ news, strStartsWith c.1 "key_" = true) := by
  constructor
  · intro ch l ctr ctr' children hall h
    rw [value_to_fs_inner_arr, if_neg hall] at h
    replace h : (match writeFileChild
        (ch.filter fun c => !(strStartsWith c.1 "elem_")) ".type"
        (.raw "array") with
      | .error e => Except.error e
      | .ok ch1 =>
        match encodeElems ch1 0 ctr l with
        | .error e => Except.error e
        | .ok (children', _, c') => Except.ok (FsNode.dir children', c')) =
        .ok (.dir children, ctr') := h
    split at h
    · cases h
    · rename_i ch1 hw
      split at h
      · cases h
      · rename_i children'' nn cc hE
        have hch1 : ch1 = setChild (ch.filter fun c => !(strStartsWith c.1 "elem_"))
            ".type" (.file (.raw "array")) := writeFileChild_ok hw
        have hbase : ∀ c ∈ ch1, strStartsWith c.1 "elem_" = false := by
          intro c hc
          rw [hch1] at hc
          rcases setChild_subset c hc with hc1 | hc1
          · rw [hc1]
            decide
          · have := (List.mem_filter.mp hc1).2
            simpa using this
        obtain ⟨news, h1, h2⟩ := encodeElems_shape l ch1 [] 0 ctr
          (children'', nn, cc) hbase (by intro c hc; simp at hc)
          (by rw [List.append_nil]; exact hE)
        have h1' : children'' = ch1 ++ news := h1
        simp only [Except.ok.injEq, Prod.mk.injEq, FsNode.dir.injEq] at h
        refine ⟨news, ?_, h2⟩
        rw [← h.1, h1', hch1]
  · intro ch m ctr ctr' children h
    rw [value_to_fs_inner_obj] at h
    replace h : (match writeFileChild
        (ch.filter fun c => !(strStartsWith c.1 "key_")) ".type"
        (.raw "dict") with
      | .error e => Except.error e
      | .ok ch1 =>
        match encodeMembers ch1 ctr m with
        | .error e => Except.error e
        | .ok (children', c') => Except.ok (FsNode.dir children', c')) =
        .ok (.dir children, ctr') := h
    split at h
    · cases h
    · rename_i ch1 hw
      split at h
      · cases h
      · rename_i children'' cc hE
        have hch1 : ch1 = setChild (ch.filter fun c => !(strStartsWith c.1 "key_"))
            ".type" (.file (.raw "dict")) := writeFileChild_ok hw
        have hbase : ∀ c ∈ ch1, strStartsWith c.1 "key_" = false := by
          intro c hc
          rw [hch1] at hc
          rcases setChild_subset c hc with hc1 | hc1
          · rw [hc1]
            decide
          · have := (List.mem_filter.mp hc1).2
            simpa using this
        obtain ⟨news, h1, h2⟩ := encodeMembers_shape m ch1 [] ctr
          (children'', cc) hbase (by intro c hc; simp at hc)
          (by rw [List.append_nil]; exact hE)
        have h1' : children'' = ch1 ++ news := h1
        simp only [Except.ok.injEq, Prod.mk.injEq, FsNode.dir.injEq] at h
        refine ⟨news, ?_, h2⟩
        rw [← h.1, h1', hch1]

theorem reencode_reconciliation_witness :
    ∃ news,
      ([("other", FsNode.file (.raw "x")), (".type", FsNode.file (.raw "array")),
          ("elem_0_0", FsNode.file (.json .null))] : List (String × FsNode)) =
        setChild (([("other", FsNode.file (.raw "x")),
            ("elem_3_9", FsNode.file (.json .null)),
            (".type", FsNode.file (.raw "dict"))] :
          List (String × FsNode)).filter fun c => !(strStartsWith c.1 "elem_"))
          ".type" (.file (.raw "array")) ++ news ∧
      ∀ c ∈ news, strStartsWith c.1 "elem_" = true :=
  reencode_reconciliation.1
    [("other", FsNode.file (.raw "x")), ("elem_3_9", FsNode.file (.json .null)),
      (".type", FsNode.file (.raw "dict"))]
    [.null] 0 1
    [("other", FsNode.file (.raw "x")), (".type", FsNode.file (.raw "array")),
      ("elem_0_0", FsNode.file (.json .null))]
    (by decide) rfl

/-- C8 (counterexample to the claim as stated) — re-encoding a mixed array
over a directory previously holding a dict rewrites the `.type` child, a
child whose name is outside the `elem_` scheme, so not every non-scheme
child is left untouched. -/
theorem reencode_marker_rewritten :
    ∃ children ctr',
      value_to_fs_inner (some (.dir [(".type", .file (.raw "dict"))]))
        (.arr [.null]) 0 = .ok (.dir children, ctr') ∧
      strStartsWith ".type" "elem_" = false ∧
      lookupChild [(".type", FsNode.file (.raw "dict"))] ".type" =
        some (.file (.raw "dict")) ∧
      lookupChild children ".type" ≠ some (.file (.raw "dict")) := by
  refine ⟨[(".type", .file (.raw "array")), ("elem_0_0", .file (.json .null))],
    1, rfl, by decide, rfl, ?_⟩
  intro h
  rw [show lookupChild [(".type", FsNode.file (.raw "array")),
    ("elem_0_0", FsNode.file (.json .null))] ".type" =
    some (.file (.raw "array")) from rfl] at h
  injection h with h
  injection h with h
  injection h with h
  exact absurd h (by decide)

end Winter2
